import Mathlib

/-!
Verification of `node-laravel-router` (`lib/create-router.js`) against its
natural-language specification.

The JavaScript source is shallowly embedded: strings are `List Char`
internally (wrapped as `String` at API boundaries), JavaScript regular
expression operations used by the source are implemented as executable
scanners, JavaScript plain objects (string-keyed maps with assignment
overwrite) are association lists with an in-place insert, and the stateful
`Router` class is modelled by explicit state passing over a tree of nodes
plus a globally shared system state (the closure variables `namedUrls` and
the host application).

Fuel-indexed recursion is used for scanners whose recursive calls consume a
matched prefix of variable length; the fuel passed by each wrapper is the
input length plus one, which is always sufficient (each step consumes at
least one character), and stability lemmas below make the fuel irrelevant
for reasoning.
-/

namespace NLRouter

/-- JavaScript word character, the `\w` class: `[A-Za-z0-9_]`. -/
def isWordChar (c : Char) : Bool :=
  (c ≥ 'a' && c ≤ 'z') || (c ≥ 'A' && c ≤ 'Z') || (c ≥ '0' && c ≤ '9') || c = '_'

/-- A character at which none of the compiler's regex scanners can start or
act: not a parameter-token opener (`:` or `{`), not a constraint opener
(`(`), and not a backslash. Used to describe inert template prefixes. -/
def plainChar (c : Char) : Bool :=
  !(c = ':' || c = '{' || c = '(' || c = '\\')

/-! ## JavaScript object model

A JavaScript plain object with string keys is an association list with
unique keys; property assignment (`obj[k] = v`) overwrites in place,
`Object.assign` / object spread copy the right object's properties onto the
left one in order. -/

/-- JavaScript property assignment `m[k] = v`: overwrite in place if the key
exists, else append. -/
def objInsert {α : Type} : List (String × α) → String → α → List (String × α)
  | [], k, v => [(k, v)]
  | (k1, v1) :: rest, k, v =>
    if k1 = k then (k, v) :: rest else (k1, v1) :: objInsert rest k v

/-- Property lookup `m[k]` (keys are unique in lists built by `objInsert`,
so first match is the match). -/
def lookupObj {α : Type} : List (String × α) → String → Option α
  | [], _ => none
  | (k1, v1) :: rest, k => if k1 = k then some v1 else lookupObj rest k

/-- `Object.assign(a, b)` / `{...a, ...b}`: copy `b`'s properties onto `a`,
later keys winning. -/
def objMerge {α : Type} (a b : List (String × α)) : List (String × α) :=
  b.foldl (fun acc kv => objInsert acc kv.1 kv.2) a

/-- `Object.assign({}, o₁, ..., oₙ)`: left-to-right merge into a fresh
object, later objects winning on key collisions. -/
def objMergeAll {α : Type} (objs : List (List (String × α))) : List (String × α) :=
  objs.foldl objMerge []

/-! ## The URI pattern compiler (`formatUriAndPatterns`)

The source uses three regexes:
`URI_PARAMS_REGEX = /((:\w+|{\w+})(\([\\]+[^()]*\)))/g`,
`BACKSLASH_REGEX = /\\/g`,
`PARENS_BACKSLASH_REGEX = /(\([\\]+[^()]*\))/g`,
plus `:(\w+\??)` → `{$1}`, `[:{}]+` → `""`, `[\\]+` → `"\"`. -/

/-- Matcher for the token part `(:\w+|{\w+})` of `URI_PARAMS_REGEX` at the
head of the input; returns the matched token and the rest. -/
def matchParamToken : List Char → Option (List Char × List Char)
  | [] => none
  | c :: rest =>
    if c = ':' then
      if (rest.takeWhile isWordChar).isEmpty then none
      else some (c :: rest.takeWhile isWordChar, rest.dropWhile isWordChar)
    else if c = '{' then
      match rest.dropWhile isWordChar with
      | [] => none
      | c2 :: r2 =>
        if c2 = '}' then
          if (rest.takeWhile isWordChar).isEmpty then none
          else some (c :: rest.takeWhile isWordChar ++ ['}'], r2)
        else none
    else none

/-- Non-parenthesis character class `[^()]`. -/
def nonParen (c : Char) : Bool := !(c = '(' || c = ')')

/-- Backslash character class `[\\]`. -/
def isBackslash (c : Char) : Bool := c = '\\'

/-- Matcher for `\([\\]+[^()]*\)` (the shared body of `PARENS_BACKSLASH_REGEX`
and the constraint part of `URI_PARAMS_REGEX`) at the head of the input:
an opening parenthesis, one or more backslashes, any run of non-parenthesis
characters, and a closing parenthesis. -/
def matchConstraint : List Char → Option (List Char × List Char)
  | [] => none
  | c :: rest =>
    if c = '(' then
      if (rest.takeWhile isBackslash).isEmpty then none
      else
        match (rest.dropWhile isBackslash).dropWhile nonParen with
        | [] => none
        | c2 :: r3 =>
          if c2 = ')' then
            some (c :: rest.takeWhile isBackslash ++
              (rest.dropWhile isBackslash).takeWhile nonParen ++ [')'], r3)
          else none
    else none

/-- Full-`URI_PARAMS_REGEX` match at the head of the input: a parameter
token immediately followed by a parenthesized backslash-led constraint. -/
def matchParamAt (cs : List Char) : Option (List Char × List Char) :=
  match matchParamToken cs with
  | none => none
  | some (t, r1) =>
    match matchConstraint r1 with
    | none => none
    | some (m, r2) => some (t ++ m, r2)

/-- `uri.match(URI_PARAMS_REGEX)`: global scan collecting all successive
non-overlapping matches (fuel-indexed; fuel `length + 1` suffices). -/
def scanParamsF : Nat → List Char → List (List Char)
  | 0, _ => []
  | _ + 1, [] => []
  | f + 1, c :: cs =>
    match matchParamAt (c :: cs) with
    | some (m, rest) => m :: scanParamsF f rest
    | none => scanParamsF f cs

def scanParams (cs : List Char) : List (List Char) :=
  scanParamsF (cs.length + 1) cs

/-- `uri.replace(PARENS_BACKSLASH_REGEX, "")`: delete every match of the
parenthesized-constraint regex, scanning left to right without rescanning
replaced output. -/
def removeParensF : Nat → List Char → List Char
  | 0, cs => cs
  | _ + 1, [] => []
  | f + 1, c :: cs =>
    match matchConstraint (c :: cs) with
    | some (_, rest) => removeParensF f rest
    | none => c :: removeParensF f cs

def removeParens (cs : List Char) : List Char :=
  removeParensF (cs.length + 1) cs

/-- `uri.replace(BACKSLASH_REGEX, "/")`: every backslash becomes a forward
slash. -/
def replaceBackslashes (cs : List Char) : List Char :=
  cs.map (fun c => if c = '\\' then '/' else c)

/-- `uri.replace(/:(\w+\??)/g, "{$1}")`: rewrite `:name` to `{name}` and
`:name?` to `{name?}`. -/
def colonToBraceF : Nat → List Char → List Char
  | 0, cs => cs
  | _ + 1, [] => []
  | f + 1, c :: cs =>
    if c = ':' then
      if (cs.takeWhile isWordChar).isEmpty then c :: colonToBraceF f cs
      else if (cs.dropWhile isWordChar).head? = some '?' then
        '{' :: (cs.takeWhile isWordChar ++ '?' :: '}' ::
          colonToBraceF f ((cs.dropWhile isWordChar).tail))
      else
        '{' :: (cs.takeWhile isWordChar ++ '}' :: colonToBraceF f (cs.dropWhile isWordChar))
    else c :: colonToBraceF f cs

def colonToBrace (cs : List Char) : List Char :=
  colonToBraceF (cs.length + 1) cs

/-- `value.replace(/[\\]+/g, "\\")`: collapse every maximal run of
backslashes to a single backslash (implemented by keeping the last
backslash of each run, which yields the same string). -/
def collapseRuns : List Char → List Char
  | [] => []
  | [c] => [c]
  | a :: b :: t =>
    if a = '\\' && b = '\\' then collapseRuns (b :: t)
    else a :: collapseRuns (b :: t)

/-- `value.substring(0, value.indexOf(")"))`: everything before the first
`)`, or the empty string when there is none (JavaScript `indexOf` returns
`-1` and `substring(0, -1)` clamps to the empty string). -/
def jsSubstrToParen (cs : List Char) : List Char :=
  if (cs.dropWhile (fun c => !(c = ')'))).isEmpty then []
  else cs.takeWhile (fun c => !(c = ')'))

/-- One iteration of the `for(const param of uriParams)` loop of
`formatUriAndPatterns`: split at the first `(`, strip `:{}` characters from
the key, read the value up to its `)`, collapse backslash runs, and assign
`patterns[key] = new RegExp('^' + value + '$')` (the regex is modelled by
its source string). -/
def addPattern (acc : List (String × String)) (param : List Char) : List (String × String) :=
  objInsert acc
    (String.mk ((param.takeWhile (fun c => !(c = '('))).filter
      (fun c => !(c = ':' || c = '{' || c = '}'))))
    (String.mk ('^' :: (collapseRuns (jsSubstrToParen
      ((param.dropWhile (fun c => !(c = '('))).drop 1)) ++ ['$'])))

/-- Result of `formatUriAndPatterns`: the rewritten uri and the pattern
object (`none` models the JavaScript `undefined` left when the uri has no
inline-constrained parameter). -/
structure FormattedUri where
  uri : String
  patterns : Option (List (String × String))
deriving DecidableEq, Repr

/-- `formatUriAndPatterns(uri)` from `lib/create-router.js` lines 68-89. -/
def formatUriAndPatterns (uri : String) : FormattedUri :=
  let cs := uri.data
  let uriParams := scanParams cs
  let base := replaceBackslashes (removeParens cs)
  if uriParams.isEmpty then
    ⟨String.mk base, none⟩
  else
    ⟨String.mk (colonToBrace base), some (uriParams.foldl addPattern [])⟩

/-! ## Basic lemmas about the scanners -/

theorem length_dropWhile_le (p : Char → Bool) (l : List Char) :
    (l.dropWhile p).length ≤ l.length := by
  induction l with
  | nil => simp [List.dropWhile]
  | cons a t ih =>
    rw [List.dropWhile_cons]
    split
    · exact Nat.le_succ_of_le ih
    · exact Nat.le_refl _

theorem matchParamToken_len {cs t r : List Char}
    (h : matchParamToken cs = some (t, r)) : r.length < cs.length := by
  match cs with
  | [] => simp [matchParamToken] at h
  | c :: rest =>
    revert h
    simp only [matchParamToken]
    split
    · split
      · intro h; cases h
      · intro h
        injection h with h1
        injection h1 with ht hr
        subst hr
        exact Nat.lt_succ_of_le (length_dropWhile_le _ _)
    · split
      · split
        · intro h; cases h
        · next c2 r2 heq =>
          split
          · split
            · intro h; cases h
            · intro h
              injection h with h1
              injection h1 with ht hr
              subst hr
              have h3 : (c2 :: r2).length ≤ rest.length := heq ▸ length_dropWhile_le _ _
              simp only [List.length_cons] at h3 ⊢
              omega
          · intro h; cases h
      · intro h; cases h

theorem matchConstraint_len {cs m r : List Char}
    (h : matchConstraint cs = some (m, r)) : r.length < cs.length := by
  match cs with
  | [] => simp [matchConstraint] at h
  | c :: rest =>
    revert h
    simp only [matchConstraint]
    split
    · split
      · intro h; cases h
      · split
        · intro h; cases h
        · next c2 r3 heq =>
          split
          · intro h
            injection h with h1
            injection h1 with hm hr
            subst hr
            have h4 : (c2 :: r3).length ≤ (rest.dropWhile isBackslash).length :=
              heq ▸ length_dropWhile_le _ _
            have h5 := length_dropWhile_le isBackslash rest
            simp only [List.length_cons] at h4 ⊢
            omega
          · intro h; cases h
    · intro h; cases h

theorem matchParamAt_len {cs m r : List Char}
    (h : matchParamAt cs = some (m, r)) : r.length < cs.length := by
  revert h
  unfold matchParamAt
  split
  · intro h; cases h
  · next t r1 heq1 =>
    split
    · intro h; cases h
    · next m2 r2 heq2 =>
      intro h
      injection h with h1
      injection h1 with hm hr
      subst hr
      exact Nat.lt_trans (matchConstraint_len heq2) (matchParamToken_len heq1)

/-! Step equations for the fuel-indexed scanners. -/

theorem scanParamsF_step_some {c : Char} {cs m rest : List Char} (f : Nat)
    (h : matchParamAt (c :: cs) = some (m, rest)) :
    scanParamsF (f + 1) (c :: cs) = m :: scanParamsF f rest := by
  simp only [scanParamsF]
  rw [h]

theorem scanParamsF_step_none {c : Char} {cs : List Char} (f : Nat)
    (h : matchParamAt (c :: cs) = none) :
    scanParamsF (f + 1) (c :: cs) = scanParamsF f cs := by
  simp only [scanParamsF]
  rw [h]

theorem removeParensF_step_some {c : Char} {cs m rest : List Char} (f : Nat)
    (h : matchConstraint (c :: cs) = some (m, rest)) :
    removeParensF (f + 1) (c :: cs) = removeParensF f rest := by
  simp only [removeParensF]
  rw [h]

theorem removeParensF_step_none {c : Char} {cs : List Char} (f : Nat)
    (h : matchConstraint (c :: cs) = none) :
    removeParensF (f + 1) (c :: cs) = c :: removeParensF f cs := by
  simp only [removeParensF]
  rw [h]

theorem colonToBraceF_step_ne {c : Char} (cs : List Char) (f : Nat) (h : c ≠ ':') :
    colonToBraceF (f + 1) (c :: cs) = c :: colonToBraceF f cs := by
  simp only [colonToBraceF]
  rw [if_neg h]

theorem scanParamsF_stable :
    ∀ (f : Nat) (cs : List Char) (g : Nat), cs.length ≤ f → cs.length ≤ g →
      scanParamsF f cs = scanParamsF g cs := by
  intro f
  induction f with
  | zero =>
    intro cs g hf _
    have : cs = [] := List.length_eq_zero.mp (Nat.le_zero.mp hf)
    subst this
    cases g <;> rfl
  | succ f ih =>
    intro cs g hf hg
    match cs with
    | [] => cases g <;> rfl
    | c :: cs2 =>
      match g with
      | g2 + 1 =>
        simp only [List.length_cons] at hf hg
        cases heq : matchParamAt (c :: cs2) with
        | some p =>
          obtain ⟨m, rest⟩ := p
          have hr := matchParamAt_len heq
          simp only [List.length_cons] at hr
          rw [scanParamsF_step_some f heq, scanParamsF_step_some g2 heq,
            ih rest g2 (by omega) (by omega)]
        | none =>
          rw [scanParamsF_step_none f heq, scanParamsF_step_none g2 heq,
            ih cs2 g2 (by omega) (by omega)]

theorem removeParensF_stable :
    ∀ (f : Nat) (cs : List Char) (g : Nat), cs.length ≤ f → cs.length ≤ g →
      removeParensF f cs = removeParensF g cs := by
  intro f
  induction f with
  | zero =>
    intro cs g hf _
    have : cs = [] := List.length_eq_zero.mp (Nat.le_zero.mp hf)
    subst this
    cases g <;> rfl
  | succ f ih =>
    intro cs g hf hg
    match cs with
    | [] => cases g <;> rfl
    | c :: cs2 =>
      match g with
      | g2 + 1 =>
        simp only [List.length_cons] at hf hg
        cases heq : matchConstraint (c :: cs2) with
        | some p =>
          obtain ⟨m, rest⟩ := p
          have hr := matchConstraint_len heq
          simp only [List.length_cons] at hr
          rw [removeParensF_step_some f heq, removeParensF_step_some g2 heq,
            ih rest g2 (by omega) (by omega)]
        | none =>
          rw [removeParensF_step_none f heq, removeParensF_step_none g2 heq,
            ih cs2 g2 (by omega) (by omega)]

theorem colonToBraceF_stable :
    ∀ (f : Nat) (cs : List Char) (g : Nat), cs.length ≤ f → cs.length ≤ g →
      colonToBraceF f cs = colonToBraceF g cs := by
  intro f
  induction f with
  | zero =>
    intro cs g hf _
    have : cs = [] := List.length_eq_zero.mp (Nat.le_zero.mp hf)
    subst this
    cases g <;> rfl
  | succ f ih =>
    intro cs g hf hg
    match cs with
    | [] => cases g <;> rfl
    | c :: cs2 =>
      match g with
      | g2 + 1 =>
        simp only [List.length_cons] at hf hg
        by_cases hc : c = ':'
        · subst hc
          have hlen := length_dropWhile_le isWordChar cs2
          by_cases hw : (cs2.takeWhile isWordChar).isEmpty = true
          · simp only [colonToBraceF, if_pos rfl, hw, if_true]
            rw [ih cs2 g2 (by omega) (by omega)]
          · by_cases hq : (cs2.dropWhile isWordChar).head? = some '?'
            · have htl : ((cs2.dropWhile isWordChar).tail).length ≤ cs2.length := by
                have h9 := List.length_tail (cs2.dropWhile isWordChar)
                omega
              simp only [colonToBraceF, if_pos rfl, hw, hq, if_true, if_false,
                ite_false, ite_true, Bool.false_eq_true]
              rw [ih ((cs2.dropWhile isWordChar).tail) g2 (by omega) (by omega)]
            · simp only [colonToBraceF, if_pos rfl, hw, hq, if_true, if_false,
                ite_false, ite_true, Bool.false_eq_true]
              rw [ih (cs2.dropWhile isWordChar) g2 (by omega) (by omega)]
        · rw [colonToBraceF_step_ne cs2 f hc, colonToBraceF_step_ne cs2 g2 hc,
            ih cs2 g2 (by omega) (by omega)]

/-! ## takeWhile / dropWhile helpers -/

theorem takeWhile_all {p : Char → Bool} {xs : List Char} (h : ∀ c ∈ xs, p c = true) :
    xs.takeWhile p = xs ∧ xs.dropWhile p = [] := by
  induction xs with
  | nil => simp
  | cons x t ih =>
    have hx : p x = true := h x (List.mem_cons_self _ _)
    have ht := ih (fun c hc => h c (List.mem_cons_of_mem _ hc))
    rw [List.takeWhile_cons, List.dropWhile_cons]
    simp [hx, ht.1, ht.2]

theorem takeWhile_middle {p : Char → Bool} {xs : List Char} (y : Char) (ys : List Char)
    (hx : ∀ c ∈ xs, p c = true) (hy : p y = false) :
    (xs ++ y :: ys).takeWhile p = xs ∧ (xs ++ y :: ys).dropWhile p = y :: ys := by
  induction xs with
  | nil => rw [List.nil_append, List.takeWhile_cons, List.dropWhile_cons]; simp [hy]
  | cons x t ih =>
    have hpx : p x = true := hx x (List.mem_cons_self _ _)
    have ht := ih (fun c hc => hx c (List.mem_cons_of_mem _ hc))
    rw [List.cons_append, List.takeWhile_cons, List.dropWhile_cons]
    simp [hpx, ht.1, ht.2]

theorem takeWhile_append_neg {p : Char → Bool} (y : Char) (xs ys : List Char)
    (hy : p y = false) :
    (xs ++ y :: ys).takeWhile p = xs.takeWhile p ∧
    (xs ++ y :: ys).dropWhile p = xs.dropWhile p ++ y :: ys := by
  induction xs with
  | nil => rw [List.nil_append, List.takeWhile_cons, List.dropWhile_cons]; simp [hy]
  | cons x t ih =>
    rw [List.cons_append, List.takeWhile_cons, List.dropWhile_cons,
      List.takeWhile_cons, List.dropWhile_cons]
    by_cases hpx : p x = true
    · simp [hpx, ih.1, ih.2]
    · simp only [Bool.not_eq_true] at hpx
      simp [hpx]

/-! ## Character-class facts -/

theorem plainChar_spec {c : Char} (h : plainChar c = true) :
    c ≠ ':' ∧ c ≠ '{' ∧ c ≠ '(' ∧ c ≠ '\\' := by
  refine ⟨?_, ?_, ?_, ?_⟩ <;> · rintro rfl; exact absurd h (by decide)

theorem isWordChar_ne {c : Char} (h : isWordChar c = true) :
    c ≠ ':' ∧ c ≠ '{' ∧ c ≠ '}' ∧ c ≠ '(' ∧ c ≠ ')' ∧ c ≠ '\\' ∧ c ≠ '?' := by
  refine ⟨?_, ?_, ?_, ?_, ?_, ?_, ?_⟩ <;> · rintro rfl; exact absurd h (by decide)

theorem isWordChar_plain {c : Char} (h : isWordChar c = true) : plainChar c = true := by
  have h1 := (isWordChar_ne h).1
  have h2 := (isWordChar_ne h).2.1
  have h4 := (isWordChar_ne h).2.2.2.1
  have h6 := (isWordChar_ne h).2.2.2.2.2.1
  simp [plainChar, h1, h2, h4, h6]

/-! ## Skip lemmas: scanners ignore inert prefixes -/

theorem matchParamAt_none_of_plain {c : Char} (cs : List Char)
    (h1 : c ≠ ':') (h2 : c ≠ '{') : matchParamAt (c :: cs) = none := by
  unfold matchParamAt matchParamToken
  simp [h1, h2]

theorem scanParams_skip {pre : List Char} (cs : List Char)
    (hpre : ∀ c ∈ pre, plainChar c = true) :
    ∀ (f g : Nat), (pre ++ cs).length ≤ f → cs.length ≤ g →
      scanParamsF f (pre ++ cs) = scanParamsF g cs := by
  induction pre with
  | nil => intro f g hf hg; exact scanParamsF_stable f cs g (by simpa using hf) hg
  | cons x t ih =>
    intro f g hf hg
    obtain ⟨hx1, hx2, -, -⟩ := plainChar_spec (hpre x (List.mem_cons_self _ _))
    simp only [List.cons_append, List.length_cons, List.length_append] at hf
    match f with
    | f2 + 1 =>
      rw [List.cons_append, scanParamsF_step_none f2 (matchParamAt_none_of_plain _ hx1 hx2)]
      exact ih (fun c hc => hpre c (List.mem_cons_of_mem _ hc)) f2 g
        (by simp only [List.length_append]; omega) hg

theorem matchConstraint_none_of_ne {c : Char} (cs : List Char) (h : c ≠ '(') :
    matchConstraint (c :: cs) = none := by
  unfold matchConstraint
  simp [h]

theorem removeParens_skip {pre : List Char} (cs : List Char)
    (hpre : ∀ c ∈ pre, c ≠ '(') :
    ∀ (f g : Nat), (pre ++ cs).length ≤ f → cs.length ≤ g →
      removeParensF f (pre ++ cs) = pre ++ removeParensF g cs := by
  induction pre with
  | nil => intro f g hf hg; exact removeParensF_stable f cs g (by simpa using hf) hg
  | cons x t ih =>
    intro f g hf hg
    have hx := hpre x (List.mem_cons_self _ _)
    simp only [List.cons_append, List.length_cons, List.length_append] at hf
    match f with
    | f2 + 1 =>
      rw [List.cons_append, removeParensF_step_none f2 (matchConstraint_none_of_ne _ hx),
        ih (fun c hc => hpre c (List.mem_cons_of_mem _ hc)) f2 g
          (by simp only [List.length_append]; omega) hg, List.cons_append]

theorem removeParens_id {cs : List Char} (h : ∀ c ∈ cs, c ≠ '(') :
    ∀ f : Nat, cs.length ≤ f → removeParensF f cs = cs := by
  have hs := removeParens_skip [] h
  intro f hf
  have h2 := hs f 0 (by simpa using hf) (by simp)
  simpa [removeParensF] using h2

theorem colonToBraceF_nil (f : Nat) : colonToBraceF f [] = [] := by
  cases f <;> rfl

theorem colonToBrace_skip {pre : List Char} (cs : List Char)
    (hpre : ∀ c ∈ pre, c ≠ ':') :
    ∀ (f g : Nat), (pre ++ cs).length ≤ f → cs.length ≤ g →
      colonToBraceF f (pre ++ cs) = pre ++ colonToBraceF g cs := by
  induction pre with
  | nil => intro f g hf hg; exact colonToBraceF_stable f cs g (by simpa using hf) hg
  | cons x t ih =>
    intro f g hf hg
    have hx := hpre x (List.mem_cons_self _ _)
    simp only [List.cons_append, List.length_cons, List.length_append] at hf
    match f with
    | f2 + 1 =>
      rw [List.cons_append, colonToBraceF_step_ne _ f2 hx,
        ih (fun c hc => hpre c (List.mem_cons_of_mem _ hc)) f2 g
          (by simp only [List.length_append]; omega) hg, List.cons_append]

theorem replaceBackslashes_id {cs : List Char} (h : ∀ c ∈ cs, c ≠ '\\') :
    replaceBackslashes cs = cs := by
  unfold replaceBackslashes
  rw [List.map_congr_left (fun c hc => by rw [if_neg (h c hc)])]
  exact List.map_id _

theorem mem_of_mem_dropWhile {p : Char → Bool} {c : Char} :
    ∀ {l : List Char}, c ∈ l.dropWhile p → c ∈ l := by
  intro l
  induction l with
  | nil => simp
  | cons a t ih =>
    rw [List.dropWhile_cons]
    split
    · intro h; exact List.mem_cons_of_mem _ (ih h)
    · exact id

/-! ## Facts about `collapseRuns` -/

theorem collapseRuns_cons_head :
    ∀ (t : List Char) (b : Char), ∃ tl, collapseRuns (b :: t) = b :: tl := by
  intro t
  induction t with
  | nil => intro b; exact ⟨[], rfl⟩
  | cons c t2 ih =>
    intro b
    show ∃ tl, collapseRuns (b :: c :: t2) = b :: tl
    unfold collapseRuns
    split
    · next hb =>
      obtain ⟨hb1, hb2⟩ := by simpa using hb
      obtain ⟨tl, htl⟩ := ih c
      exact ⟨tl, by rw [htl, hb1, hb2]⟩
    · exact ⟨collapseRuns (c :: t2), rfl⟩

/-- No two adjacent backslashes occur in the list. -/
def noTwoBS : List Char → Bool
  | [] => true
  | [_] => true
  | a :: b :: t => !(a = '\\' && b = '\\') && noTwoBS (b :: t)

theorem noTwoBS_collapseRuns : ∀ cs : List Char, noTwoBS (collapseRuns cs) = true := by
  intro cs
  induction cs with
  | nil => rfl
  | cons a t ih =>
    match t, ih with
    | [], _ => rfl
    | b :: t2, ih =>
      show noTwoBS (collapseRuns (a :: b :: t2)) = true
      unfold collapseRuns
      split
      · exact ih
      · next hab =>
        obtain ⟨tl, htl⟩ := collapseRuns_cons_head t2 b
        rw [htl]
        have hnb : noTwoBS (b :: tl) = true := htl ▸ ih
        show noTwoBS (a :: b :: tl) = true
        unfold noTwoBS
        simp only [Bool.and_eq_true, Bool.not_eq_true']
        constructor
        · simpa using hab
        · exact hnb

/-! ## Computation of `formatUriAndPatterns` on a single constrained
colon-parameter template -/

theorem isEmpty_false_of_ne_nil {l : List Char} (h : l ≠ []) : l.isEmpty = false := by
  cases l with
  | nil => exact absurd rfl h
  | cons a t => rfl

theorem matchParamToken_colon (rest : List Char) :
    matchParamToken (':' :: rest) =
      if (rest.takeWhile isWordChar).isEmpty then none
      else some (':' :: rest.takeWhile isWordChar, rest.dropWhile isWordChar) := rfl

theorem matchConstraint_open (rest : List Char) :
    matchConstraint ('(' :: rest) =
      if (rest.takeWhile isBackslash).isEmpty then none
      else
        match (rest.dropWhile isBackslash).dropWhile nonParen with
        | [] => none
        | c2 :: r3 =>
          if c2 = ')' then
            some ('(' :: rest.takeWhile isBackslash ++
              (rest.dropWhile isBackslash).takeWhile nonParen ++ [')'], r3)
          else none := rfl

theorem matchConstraint_body {body : List Char} (tail : List Char)
    (hb0 : body.head? = some '\\') (hbp : ∀ c ∈ body, nonParen c = true) :
    matchConstraint ('(' :: (body ++ ')' :: tail)) =
      some ('(' :: (body ++ [')']), tail) := by
  have hbs : isBackslash ')' = false := by decide
  have hbw := takeWhile_append_neg ')' body tail hbs
  have hbne : (body.takeWhile isBackslash).isEmpty = false := by
    cases body with
    | nil => cases hb0
    | cons b0 b2 =>
      have hb : b0 = '\\' := by simpa using hb0
      subst hb
      rw [List.takeWhile_cons, if_pos (by decide)]
      rfl
  have hdp : ∀ c ∈ body.dropWhile isBackslash, nonParen c = true :=
    fun c hc => hbp c (mem_of_mem_dropWhile hc)
  have hnp : nonParen ')' = false := by decide
  have hnb := takeWhile_middle ')' tail hdp hnp
  have hv : (('(' :: body.takeWhile isBackslash) ++ body.dropWhile isBackslash) ++ [')'] =
      '(' :: (body ++ [')']) := by
    rw [List.cons_append, List.cons_append, List.takeWhile_append_dropWhile]
  rw [matchConstraint_open, hbw.1, hbw.2, hnb.1, hnb.2, hv, if_neg (by simp [hbne])]
  rfl

theorem matchParamAt_colon {name body : List Char} (tail : List Char)
    (hn0 : name ≠ []) (hnw : ∀ c ∈ name, isWordChar c = true)
    (hb0 : body.head? = some '\\') (hbp : ∀ c ∈ body, nonParen c = true) :
    matchParamAt (':' :: (name ++ '(' :: (body ++ ')' :: tail))) =
      some (':' :: (name ++ '(' :: (body ++ [')'])), tail) := by
  have hparen : isWordChar '(' = false := by decide
  have htw := takeWhile_middle '(' (body ++ ')' :: tail) hnw hparen
  have htok : matchParamToken (':' :: (name ++ '(' :: (body ++ ')' :: tail))) =
      some (':' :: name, '(' :: (body ++ ')' :: tail)) := by
    rw [matchParamToken_colon, htw.1, htw.2,
      if_neg (by simp [isEmpty_false_of_ne_nil hn0])]
  have hcon := matchConstraint_body tail hb0 hbp
  have hassoc : (':' :: name) ++ ('(' :: (body ++ [')'])) =
      ':' :: (name ++ '(' :: (body ++ [')'])) := by simp
  unfold matchParamAt
  rw [htok]
  show (match matchConstraint ('(' :: (body ++ ')' :: tail)) with
       | none => none
       | some (m, r2) => some ((':' :: name) ++ m, r2)) =
      some (':' :: (name ++ '(' :: (body ++ [')'])), tail)
  rw [hcon]
  show some ((':' :: name) ++ ('(' :: (body ++ [')'])), tail) = _
  rw [hassoc]

theorem scanParamsF_nil (f : Nat) : scanParamsF f [] = [] := by cases f <;> rfl

theorem removeParensF_nil (f : Nat) : removeParensF f [] = [] := by cases f <;> rfl

theorem colonToBraceF_colon (f : Nat) (cs : List Char) :
    colonToBraceF (f + 1) (':' :: cs) =
      if (cs.takeWhile isWordChar).isEmpty then ':' :: colonToBraceF f cs
      else if (cs.dropWhile isWordChar).head? = some '?' then
        '{' :: (cs.takeWhile isWordChar ++ '?' :: '}' ::
          colonToBraceF f ((cs.dropWhile isWordChar).tail))
      else
        '{' :: (cs.takeWhile isWordChar ++ '}' :: colonToBraceF f (cs.dropWhile isWordChar)) :=
  rfl

theorem matchParamToken_brace (rest : List Char) :
    matchParamToken ('{' :: rest) =
      (match rest.dropWhile isWordChar with
       | [] => none
       | c2 :: r2 =>
         if c2 = '}' then
           if (rest.takeWhile isWordChar).isEmpty then none
           else some ('{' :: rest.takeWhile isWordChar ++ ['}'], r2)
         else none) := rfl

/-- C1 [corrected, amended form]: for every template `pre:name(body)` made
of an inert prefix, a colon parameter with a nonempty word name, and an
inline backslash-led parenthesis-free constraint body, the compiler outputs
`pre{name}` — the parameter is rewritten into BRACE notation (not colon
notation as the original claim stated) with the parenthesized constraint
body removed from the uri — and the constraint map binds `name` to the
anchored pattern `^body$` with backslash runs collapsed. -/
theorem c1_format_colon_constrained (pre name body : List Char)
    (hpre : ∀ c ∈ pre, plainChar c = true)
    (hn0 : name ≠ []) (hnw : ∀ c ∈ name, isWordChar c = true)
    (hb0 : body.head? = some '\\') (hbp : ∀ c ∈ body, nonParen c = true) :
    formatUriAndPatterns (String.mk (pre ++ ':' :: (name ++ '(' :: (body ++ [')'])))) =
      ⟨String.mk (pre ++ '{' :: (name ++ ['}'])),
       some [(String.mk name, String.mk ('^' :: (collapseRuns body ++ ['$'])))]⟩ := by
  have hnplain : ∀ c ∈ name, plainChar c = true := fun c hc => isWordChar_plain (hnw c hc)
  have hm := matchParamAt_colon [] hn0 hnw hb0 hbp
  set L := pre ++ ':' :: (name ++ '(' :: (body ++ [')'])) with hLdef
  set m := ':' :: (name ++ '(' :: (body ++ [')'])) with hmdef
  -- the global regex scan finds exactly the one parameter match
  have hscan : scanParams L = [m] := by
    show scanParamsF (L.length + 1) L = [m]
    rw [scanParams_skip (':' :: (name ++ '(' :: (body ++ [')'])))
      hpre (L.length + 1) ((name ++ '(' :: (body ++ [')'])).length + 1)
      (Nat.le_succ _) (by simp)]
    rw [scanParamsF_step_some _ hm, scanParamsF_nil]
  -- the constraint text is deleted from the uri
  have hnoparen : ∀ c ∈ pre ++ ':' :: name, c ≠ '(' := by
    intro c hc
    rcases List.mem_append.mp hc with h | h
    · exact (plainChar_spec (hpre c h)).2.2.1
    · rcases List.mem_cons.mp h with h | h
      · subst h; decide
      · exact (isWordChar_ne (hnw c h)).2.2.2.1
  have hremove : removeParens L = pre ++ ':' :: name := by
    show removeParensF (L.length + 1) L = pre ++ ':' :: name
    have hL2 : L = (pre ++ ':' :: name) ++ '(' :: (body ++ [')']) := by simp [hLdef]
    rw [hL2]
    rw [removeParens_skip ('(' :: (body ++ [')'])) hnoparen
      _ ((body ++ [')']).length + 2) (Nat.le_succ _) (by simp)]
    rw [show (body ++ [')']).length + 2 = ((body ++ [')']).length + 1) + 1 from rfl,
      removeParensF_step_some _ (matchConstraint_body [] hb0 hbp), removeParensF_nil,
      List.append_nil]
  have hnobs : ∀ c ∈ pre ++ ':' :: name, c ≠ '\\' := by
    intro c hc
    rcases List.mem_append.mp hc with h | h
    · exact (plainChar_spec (hpre c h)).2.2.2
    · rcases List.mem_cons.mp h with h | h
      · subst h; decide
      · exact (isWordChar_ne (hnw c h)).2.2.2.2.2.1
  have hreplace : replaceBackslashes (pre ++ ':' :: name) = pre ++ ':' :: name :=
    replaceBackslashes_id hnobs
  -- the remaining colon parameter is rewritten into brace notation
  have hnocolon : ∀ c ∈ pre, c ≠ ':' := fun c hc => (plainChar_spec (hpre c hc)).1
  have htwn := takeWhile_all hnw
  have hcolon : colonToBrace (pre ++ ':' :: name) = pre ++ '{' :: (name ++ ['}']) := by
    show colonToBraceF ((pre ++ ':' :: name).length + 1) (pre ++ ':' :: name) =
      pre ++ '{' :: (name ++ ['}'])
    rw [colonToBrace_skip (':' :: name) hnocolon _ (name.length + 1)
      (Nat.le_succ _) (by simp)]
    rw [colonToBraceF_colon, htwn.1, htwn.2,
      if_neg (by simp [isEmpty_false_of_ne_nil hn0]), if_neg (by simp),
      colonToBraceF_nil]
  -- the extracted pattern
  have hp0 : ∀ c ∈ (':' :: name), (fun c => !(c = '(')) c = true := by
    intro c hc
    rcases List.mem_cons.mp hc with h | h
    · subst h; decide
    · simp [(isWordChar_ne (hnw c h)).2.2.2.1]
  have htwm := takeWhile_middle '(' (body ++ [')']) hp0 (by decide)
  have hbnp : ∀ c ∈ body, (fun c => !(c = ')')) c = true := by
    intro c hc
    have h2 := hbp c hc
    simp only [nonParen, Bool.not_eq_true', Bool.or_eq_false_iff] at h2
    simp [h2.2]
  have htwb := takeWhile_middle ')' [] hbnp (by decide)
  have hfil : (':' :: name).filter (fun c => !(c = ':' || c = '{' || c = '}')) = name := by
    rw [List.filter_cons, if_neg (by decide)]
    apply List.filter_eq_self.mpr
    intro c hc
    have h1 := (isWordChar_ne (hnw c hc)).1
    have h2 := (isWordChar_ne (hnw c hc)).2.1
    have h3 := (isWordChar_ne (hnw c hc)).2.2.1
    simp [h1, h2, h3]
  have hjs : jsSubstrToParen (body ++ [')']) = body := by
    unfold jsSubstrToParen
    rw [htwb.1, htwb.2, if_neg (by simp)]
  have hadd : addPattern [] m =
      [(String.mk name, String.mk ('^' :: (collapseRuns body ++ ['$'])))] := by
    unfold addPattern
    have hm2 : m = (':' :: name) ++ '(' :: (body ++ [')']) := by simp [hmdef]
    rw [hm2, htwm.1, htwm.2, hfil,
      show List.drop 1 ('(' :: (body ++ [')'])) = body ++ [')'] from rfl, hjs]
    rfl
  -- assemble
  show formatUriAndPatterns (String.mk L) = _
  have hdata : (String.mk L).data = L := rfl
  simp only [formatUriAndPatterns, hdata]
  rw [hscan, hremove, hreplace, if_neg (by simp), hcolon]
  simp only [List.foldl_cons, List.foldl_nil]
  rw [hadd]

theorem scanParams_plain_nil {cs : List Char} (h : ∀ c ∈ cs, plainChar c = true) :
    ∀ f, cs.length ≤ f → scanParamsF f cs = [] := by
  intro f hf
  have h2 := scanParams_skip [] h f 0 (by simpa using hf) (by simp)
  rw [List.append_nil] at h2
  simpa using h2

/-- C1 [corrected]: counterexample to the claim as stated — compiling
`"/users/:id(\d+)"` does not produce the colon-notation uri `"/users/:id"`;
it produces the brace-notation uri `"/users/{id}"` (the constraint map part
of the claim, `{id: /^\d+$/}`, does hold). -/
theorem c1_counterexample :
    (formatUriAndPatterns "/users/:id(\\d+)").uri = "/users/{id}" ∧
    (formatUriAndPatterns "/users/:id(\\d+)").uri ≠ "/users/:id" ∧
    (formatUriAndPatterns "/users/:id(\\d+)").patterns = some [("id", "^\\d+$")] := by
  refine ⟨by decide, by decide, by decide⟩

/-- Witness for C1: the amended theorem applied at the concrete template
`"/users/:id(\d+)"`, yielding uri `"/users/{id}"` and constraints
`{id: ^\d+$}`. -/
theorem c1_witness :
    ((∀ c ∈ ("/users/".data), plainChar c = true) ∧ (['i', 'd'] : List Char) ≠ []) ∧
    formatUriAndPatterns "/users/:id(\\d+)" =
      ⟨"/users/{id}", some [("id", "^\\d+$")]⟩ := by
  refine ⟨⟨by decide, by decide⟩, ?_⟩
  have h := c1_format_colon_constrained ("/users/".data) ['i', 'd'] ['\\', 'd', '+']
    (by decide) (by decide) (by decide) (by decide) (by decide)
  have harg : ("/users/:id(\\d+)" : String) =
      String.mk ("/users/".data ++ ':' :: (['i', 'd'] ++ '(' :: (['\\', 'd', '+'] ++ [')']))) := by
    decide
  rw [harg, h]
  decide

/-- C3 [corrected, amended form]: a brace-delimited token without an inline
constraint is left unchanged by the compiler (it is NOT rewritten into colon
notation as the original claim stated): for every inert prefix and word
name, compiling `pre{name}` returns `pre{name}` itself with no constraint
map. -/
theorem c3_format_brace_unconstrained (pre name : List Char)
    (hpre : ∀ c ∈ pre, plainChar c = true)
    (hnw : ∀ c ∈ name, isWordChar c = true) :
    formatUriAndPatterns (String.mk (pre ++ '{' :: (name ++ ['}']))) =
      ⟨String.mk (pre ++ '{' :: (name ++ ['}'])), none⟩ := by
  have htw := takeWhile_middle '}' [] hnw (by decide)
  have htok : matchParamToken ('{' :: (name ++ ['}'])) =
      if name.isEmpty then none else some ('{' :: name ++ ['}'], []) := by
    rw [matchParamToken_brace, htw.1, htw.2]
    rfl
  have hma : matchParamAt ('{' :: (name ++ ['}'])) = none := by
    unfold matchParamAt
    rw [htok]
    by_cases hni : name.isEmpty = true
    · rw [if_pos hni]
    · rw [if_neg hni]
      rfl
  set L := pre ++ '{' :: (name ++ ['}']) with hLdef
  have hplain2 : ∀ c ∈ name ++ ['}'], plainChar c = true := by
    intro c hc
    rcases List.mem_append.mp hc with h | h
    · exact isWordChar_plain (hnw c h)
    · rcases List.mem_singleton.mp h with rfl
      decide
  have hscan : scanParams L = [] := by
    show scanParamsF (L.length + 1) L = []
    rw [scanParams_skip ('{' :: (name ++ ['}'])) hpre (L.length + 1)
      ((name ++ ['}']).length + 1) (Nat.le_succ _) (by simp)]
    rw [scanParamsF_step_none _ hma]
    exact scanParams_plain_nil hplain2 _ (Nat.le_refl _)
  have hnoparen : ∀ c ∈ L, c ≠ '(' := by
    intro c hc
    rcases List.mem_append.mp hc with h | h
    · exact (plainChar_spec (hpre c h)).2.2.1
    · rcases List.mem_cons.mp h with h | h
      · subst h; decide
      · rcases List.mem_append.mp h with h | h
        · exact (isWordChar_ne (hnw c h)).2.2.2.1
        · rcases List.mem_singleton.mp h with rfl; decide
  have hnobs : ∀ c ∈ L, c ≠ '\\' := by
    intro c hc
    rcases List.mem_append.mp hc with h | h
    · exact (plainChar_spec (hpre c h)).2.2.2
    · rcases List.mem_cons.mp h with h | h
      · subst h; decide
      · rcases List.mem_append.mp h with h | h
        · exact (isWordChar_ne (hnw c h)).2.2.2.2.2.1
        · rcases List.mem_singleton.mp h with rfl; decide
  have hremove : removeParens L = L := removeParens_id hnoparen _ (Nat.le_succ _)
  have hreplace : replaceBackslashes L = L := replaceBackslashes_id hnobs
  show formatUriAndPatterns (String.mk L) = _
  have hdata : (String.mk L).data = L := rfl
  simp only [formatUriAndPatterns, hdata]
  rw [hscan, hremove, hreplace, if_pos (by simp)]

/-- C3 [corrected]: counterexample to the claim as stated — compiling
`"/users/{name}"` does not produce `"/users/:name"`; the brace token is
left unchanged. -/
theorem c3_counterexample :
    (formatUriAndPatterns "/users/{name}").uri = "/users/{name}" ∧
    (formatUriAndPatterns "/users/{name}").uri ≠ "/users/:name" := by
  refine ⟨by decide, by decide⟩

/-- Witness for C3: the amended theorem applied at the concrete template
`"/users/{name}"`. -/
theorem c3_witness :
    (∀ c ∈ ("/users/".data), plainChar c = true) ∧
    formatUriAndPatterns "/users/{name}" = ⟨"/users/{name}", none⟩ := by
  refine ⟨by decide, ?_⟩
  have h := c3_format_brace_unconstrained ("/users/".data) ['n', 'a', 'm', 'e']
    (by decide) (by decide)
  have harg : ("/users/{name}" : String) =
      String.mk ("/users/".data ++ '{' :: (['n', 'a', 'm', 'e'] ++ ['}'])) := by decide
  rw [harg, h]

/-! ## C7: every compiled constraint regex is anchored -/

/-- Shape of every regex source produced by the compiler for an inline
constraint: `^` then a backslash-run-collapsed body then `$`. -/
def patternShapeOk (v : String) : Prop :=
  ∃ raw, v.data = '^' :: (collapseRuns raw ++ ['$']) ∧ noTwoBS (collapseRuns raw) = true

theorem mem_objInsert {α : Type} {m : List (String × α)} {k : String} {v : α}
    {p : String × α} (hp : p ∈ objInsert m k v) : p ∈ m ∨ p = (k, v) := by
  induction m with
  | nil => simpa [objInsert] using hp
  | cons a rest ih =>
    obtain ⟨k1, v1⟩ := a
    unfold objInsert at hp
    split at hp
    · rcases List.mem_cons.mp hp with h | h
      · exact Or.inr h
      · exact Or.inl (List.mem_cons_of_mem _ h)
    · rcases List.mem_cons.mp hp with h | h
      · exact Or.inl (h ▸ List.mem_cons_self _ _)
      · rcases ih h with h2 | h2
        · exact Or.inl (List.mem_cons_of_mem _ h2)
        · exact Or.inr h2

theorem foldl_addPattern_ok :
    ∀ (params : List (List Char)) (acc : List (String × String)),
      (∀ p ∈ acc, patternShapeOk p.2) →
      ∀ p ∈ params.foldl addPattern acc, patternShapeOk p.2 := by
  intro params
  induction params with
  | nil => intro acc hacc p hp; exact hacc p (by simpa using hp)
  | cons x xs ih =>
    intro acc hacc p hp
    rw [List.foldl_cons] at hp
    refine ih (addPattern acc x) ?_ p hp
    intro q hq
    rcases mem_objInsert hq with h | h
    · exact hacc q h
    · subst h
      exact ⟨jsSubstrToParen ((x.dropWhile (fun c => !(c = '('))).drop 1), rfl,
        noTwoBS_collapseRuns _⟩

/-- C7 [confirmed]: every constraint regex produced by the compiler from an
inline parenthesized constraint body has source text exactly `^body$`, where
`body` is the image of backslash-run collapsing (so no doubled backslash
remains in it): the regexes are always anchored and un-escaped before
compilation. -/
theorem c7_constraints_anchored (uri : String) (ps : List (String × String))
    (k v : String)
    (h1 : (formatUriAndPatterns uri).patterns = some ps) (h2 : (k, v) ∈ ps) :
    ∃ raw, v.data = '^' :: (collapseRuns raw ++ ['$']) ∧
      noTwoBS (collapseRuns raw) = true := by
  revert h1
  simp only [formatUriAndPatterns]
  split
  · intro h1; cases h1
  · intro h1
    injection h1 with h1
    exact foldl_addPattern_ok _ [] (by simp) (k, v) (h1 ▸ h2)

/-- Witness for C7: the theorem applied at `"/users/:id(\d+)"`, whose single
constraint compiles to `/^\d+$/`; a doubled backslash in
`"/x/:a(\\w)"` is collapsed to a single one before anchoring. -/
theorem c7_witness :
    ((formatUriAndPatterns "/users/:id(\\d+)").patterns = some [("id", "^\\d+$")] ∧
      ("id", ("^\\d+$" : String)) ∈ [(("id" : String), ("^\\d+$" : String))]) ∧
    (∃ raw, ("^\\d+$" : String).data = '^' :: (collapseRuns raw ++ ['$']) ∧
      noTwoBS (collapseRuns raw) = true) ∧
    (formatUriAndPatterns "/x/:a(\\\\w)").patterns = some [("a", "^\\w$")] := by
  refine ⟨⟨by decide, by decide⟩, ?_, by decide⟩
  exact c7_constraints_anchored "/users/:id(\\d+)" [("id", "^\\d+$")] "id" "^\\d+$"
    (by decide) (by decide)

/-! ## External collaborators -/

/-- Run-collapsing for forward slashes (same scheme as `collapseRuns`). -/
def collapseSlashes : List Char → List Char
  | [] => []
  | [c] => [c]
  | a :: b :: t =>
    if a = '/' && b = '/' then collapseSlashes (b :: t)
    else a :: collapseSlashes (b :: t)

/-- Modelled from Node's documented posix `path.join`, used by the source
via `path.join.apply(null, segments)`: zero-length segments are ignored, the
rest are joined with `/`, and the result is normalized by collapsing
repeated separators; joining nothing yields `"."`. (`.` and `..` segment
resolution is part of Node's normalize but is not exercised by any claim
and is not modelled.) -/
def pathJoin (parts : List String) : String :=
  match parts.filter (fun p => p ≠ "") with
  | [] => "."
  | ps => String.mk (collapseSlashes (String.intercalate "/" ps).data)

/-- Strip the `^...$` anchors off a stored constraint-regex source. -/
def stripAnchors (s : String) : List Char :=
  let l1 := if s.data.head? = some '^' then s.data.tail else s.data
  if l1.getLast? = some '$' then l1.dropLast else l1

/-- Inline constraint group for a parameter, when the map constrains it. -/
def constraintInline (pats : List (String × String)) (w : List Char) : List Char :=
  match lookupObj pats (String.mk w) with
  | some src => '(' :: (stripAnchors src ++ [')'])
  | none => []

def laravelToExpressF : Nat → List (String × String) → List Char → List Char
  | 0, _, cs => cs
  | _ + 1, _, [] => []
  | f + 1, pats, c :: cs =>
    if c = '{' then
      if (cs.takeWhile isWordChar).isEmpty then c :: laravelToExpressF f pats cs
      else
        match cs.dropWhile isWordChar with
        | '}' :: r2 =>
          ':' :: (cs.takeWhile isWordChar ++
            (constraintInline pats (cs.takeWhile isWordChar) ++ laravelToExpressF f pats r2))
        | '?' :: '}' :: r2 =>
          ':' :: (cs.takeWhile isWordChar ++
            (constraintInline pats (cs.takeWhile isWordChar) ++
              ('?' :: laravelToExpressF f pats r2)))
        | _ => c :: laravelToExpressF f pats cs
    else c :: laravelToExpressF f pats cs

/-- Modelled from the spec: `lib/laravel-to-express.js` is required by
`create-router.js` but is not under `src/`. Spec section 4.2 describes it as
a pure function rendering a normalized template plus constraint map into the
host matcher's pattern-string syntax: every brace-delimited parameter is
rendered as a colon placeholder, a constrained parameter's constraint
(anchors stripped) is embedded as an inline group directly after its name,
optional `?` markers are preserved, unconstrained parameters render plainly,
and non-parameter text is untouched. -/
def laravelToExpress (uri : String) (patterns : List (String × String)) : String :=
  String.mk (laravelToExpressF (uri.length + 1) patterns uri.data)

/-! ## The Router model

`createRouter(app?, mapActionToHandler?)` closes over the optional host
`app` (whose Express-likeness decides eager vs lazy mode), the pluggable
`mapActionToHandler` (default identity), and the single shared `namedUrls`
store. These closure values are modelled by `RouterConfig` (immutable) and
`Sys` (mutable shared state: the named-URL store and the calls made on the
host). Handler values have abstract type `H`; meta values abstract type
`V`. -/

/-- One element of `this.routes` (source lines 277-281): the data later
passed to `routingFn` by `apply`. -/
structure RouteEntry (H : Type) where
  method : String
  path : String
  handlers : List H
deriving DecidableEq, Repr

/-- One record of the shared `namedUrls` store (source lines 256-261). -/
structure NamedUrl where
  uri : String
  patterns : List (String × String)
deriving DecidableEq, Repr

/-- A registration performed on the host app: `app[method](path, stack)` for
eager `route()`, `app.use(path, stack)` for eager `serve()`. -/
inductive HostCall (H : Type) where
  | verb (method : String) (path : String) (stack : List H)
  | use (path : String) (stack : List H)
deriving DecidableEq, Repr

/-- Mutable state shared by the whole tree: the closure's `namedUrls` object
and the record of host registrations. -/
structure Sys (H : Type) where
  named : List (String × NamedUrl)
  hostCalls : List (HostCall H)
deriving DecidableEq, Repr

/-- The route description passed as second argument to
`mapActionToHandler` (source lines 248-254). -/
structure RouteDesc (H V : Type) where
  uri : String
  middleware : List H
  name : String
  patterns : List (String × String)
  meta : List (String × V)

/-- A user-supplied `route()` options object; `none` = property absent. -/
structure RouteOptions (H V : Type) where
  method : Option String := none
  uri : Option String := none
  middleware : Option (List H) := none
  name : Option String := none
  patterns : Option (List (String × String)) := none
  meta : Option (List (String × V)) := none

/-- A fully merged route options object. -/
structure RouteOptionsM (H V : Type) where
  method : String
  uri : String
  middleware : List H
  name : String
  patterns : List (String × String)
  meta : List (String × V)

/-- `defaultRouteOptions` (source lines 28-35). -/
def defaultRouteOptions {H V : Type} : RouteOptionsM H V :=
  ⟨"get", "/", [], "", [], []⟩

/-- `method.toLowerCase()` (character-wise lower-casing, as JavaScript
performs on method names). -/
def jsToLower (s : String) : String := String.mk (s.data.map Char.toLower)

/-- `Object.assign({}, defaultRouteOptions, options)` followed by the
method lower-casing of source line 228. -/
def mergedRouteOpts {H V : Type} (o : RouteOptions H V) : RouteOptionsM H V :=
  { method := jsToLower (o.method.getD (defaultRouteOptions : RouteOptionsM H V).method)
    uri := o.uri.getD (defaultRouteOptions : RouteOptionsM H V).uri
    middleware := o.middleware.getD (defaultRouteOptions : RouteOptionsM H V).middleware
    name := o.name.getD (defaultRouteOptions : RouteOptionsM H V).name
    patterns := o.patterns.getD (defaultRouteOptions : RouteOptionsM H V).patterns
    meta := o.meta.getD (defaultRouteOptions : RouteOptionsM H V).meta }

/-- A user-supplied `group()` options object. `pfx` models the source's
option named after the route prefix; `nspace` models its `namespace`
option (neither source name is usable as a Lean field name here). -/
structure GroupOptions (H V : Type) where
  pfx : Option String := none
  middleware : Option (List H) := none
  nspace : Option String := none
  patterns : Option (List (String × String)) := none
  meta : Option (List (String × V)) := none

/-- A fully merged group options object. -/
structure GroupOptionsM (H V : Type) where
  pfx : String
  middleware : List H
  nspace : String
  patterns : List (String × String)
  meta : List (String × V)

/-- `defaultGroupOptions` (source lines 21-27). -/
def defaultGroupOptions {H V : Type} : GroupOptionsM H V :=
  ⟨"/", [], "", [], []⟩

/-- `Object.assign({}, defaultGroupOptions, options)`. -/
def mergedGroupOpts {H V : Type} (o : GroupOptions H V) : GroupOptionsM H V :=
  { pfx := o.pfx.getD (defaultGroupOptions : GroupOptionsM H V).pfx
    middleware := o.middleware.getD (defaultGroupOptions : GroupOptionsM H V).middleware
    nspace := o.nspace.getD (defaultGroupOptions : GroupOptionsM H V).nspace
    patterns := o.patterns.getD (defaultGroupOptions : GroupOptionsM H V).patterns
    meta := o.meta.getD (defaultGroupOptions : GroupOptionsM H V).meta }

/-- A Router instance (tree node): the instance fields set by the
constructor (source lines 162-212). `routeGroups` holds the child Routers
created by `group()`. -/
inductive RouterNode (H V : Type) : Type where
  | mk (uris : List String) (middlewares : List H) (names : List String)
      (patterns : List (List (String × String))) (metas : List (List (String × V)))
      (lazyRoute : Bool) (routes : List (RouteEntry H))
      (routeGroups : List (RouterNode H V)) : RouterNode H V

def RouterNode.uris {H V : Type} : RouterNode H V → List String
  | .mk u _ _ _ _ _ _ _ => u

def RouterNode.middlewares {H V : Type} : RouterNode H V → List H
  | .mk _ m _ _ _ _ _ _ => m

def RouterNode.names {H V : Type} : RouterNode H V → List String
  | .mk _ _ n _ _ _ _ _ => n

def RouterNode.patterns {H V : Type} : RouterNode H V → List (List (String × String))
  | .mk _ _ _ p _ _ _ _ => p

def RouterNode.metas {H V : Type} : RouterNode H V → List (List (String × V))
  | .mk _ _ _ _ m _ _ _ => m

def RouterNode.lazyRoute {H V : Type} : RouterNode H V → Bool
  | .mk _ _ _ _ _ l _ _ => l

def RouterNode.routes {H V : Type} : RouterNode H V → List (RouteEntry H)
  | .mk _ _ _ _ _ _ r _ => r

def RouterNode.routeGroups {H V : Type} : RouterNode H V → List (RouterNode H V)
  | .mk _ _ _ _ _ _ _ g => g

/-- The `createRouter` closure values: whether an Express-type app was
supplied (eager mode) and the action-to-handler mapper (default identity in
the source). -/
structure RouterConfig (H V : Type) where
  eager : Bool
  mapActionToHandler : H → RouteDesc H V → RouteOptionsM H V → H

/-- `new Router()`: fresh instance fields; `lazyRoute` is true iff no
Express-type app was supplied (source line 201). -/
def mkRouter {H V : Type} (cfg : RouterConfig H V) : RouterNode H V :=
  .mk [] [] [] [] [] (!cfg.eager) [] []

def sysInit {H : Type} : Sys H := ⟨[], []⟩

/-- `route()` / verb-sugar first argument: a bare uri string or an options
object. -/
inductive StrOrRouteOpts (H V : Type) where
  | str (s : String)
  | obj (o : RouteOptions H V)

/-- `group()` first argument: a bare prefix string or an options object. -/
inductive StrOrGroupOpts (H V : Type) where
  | str (s : String)
  | obj (o : GroupOptions H V)

/-- Source lines 222-224: a bare string becomes `{uri: thatString}`. -/
def normalizeRouteArg {H V : Type} : StrOrRouteOpts H V → RouteOptions H V
  | .str s => { uri := some s }
  | .obj o => o

/-- Source lines 293-297: a bare string becomes a prefix-only object. -/
def normalizeGroupArg {H V : Type} : StrOrGroupOpts H V → GroupOptions H V
  | .str s => { pfx := some s }
  | .obj o => o

section RouterModel

variable {H V : Type}

/-- `path.join.apply(null, this.uris.concat(routeOptions.uri))` (line 232). -/
def routeRawUri (n : RouterNode H V) (m : RouteOptionsM H V) : String :=
  pathJoin (n.uris ++ [m.uri])

/-- The compiled uri of the route (lines 234-236). -/
def routeUri (n : RouterNode H V) (m : RouteOptionsM H V) : String :=
  (formatUriAndPatterns (routeRawUri n m)).uri

/-- `this.patterns` after the conditional concat of the formatted patterns
(lines 238-241). -/
def routeNodePatterns (n : RouterNode H V) (m : RouteOptionsM H V) :
    List (List (String × String)) :=
  match (formatUriAndPatterns (routeRawUri n m)).patterns with
  | some fp => n.patterns ++ [fp]
  | none => n.patterns

/-- `this.middlewares.concat(routeOptions.middleware)` (line 243). -/
def routeMiddleware (n : RouterNode H V) (m : RouteOptionsM H V) : List H :=
  n.middlewares ++ m.middleware

/-- `this.names.concat(routeOptions.name).join("")` (line 244). -/
def routeFinalName (n : RouterNode H V) (m : RouteOptionsM H V) : String :=
  String.join (n.names ++ [m.name])

/-- `Object.assign.apply(null, [{}].concat(this.patterns,
routeOptions.patterns))` (line 245), with `this.patterns` already updated. -/
def routeMergedPatterns (n : RouterNode H V) (m : RouteOptionsM H V) :
    List (String × String) :=
  objMergeAll (routeNodePatterns n m ++ [m.patterns])

/-- `Object.assign.apply(null, [{}].concat(this.metas, routeOptions.meta))`
(line 246). -/
def routeMergedMeta (n : RouterNode H V) (m : RouteOptionsM H V) :
    List (String × V) :=
  objMergeAll (n.metas ++ [m.meta])

/-- The route description passed to `mapActionToHandler` (lines 248-254). -/
def routeDescOf (n : RouterNode H V) (m : RouteOptionsM H V) : RouteDesc H V :=
  ⟨routeUri n m, routeMiddleware n m, routeFinalName n m,
   routeMergedPatterns n m, routeMergedMeta n m⟩

/-- `middleware.concat(mapActionToHandler(action, description,
routeOptions))` (line 248). -/
def routeStack (cfg : RouterConfig H V) (n : RouterNode H V) (m : RouteOptionsM H V)
    (a : H) : List H :=
  routeMiddleware n m ++ [cfg.mapActionToHandler a (routeDescOf n m) m]

/-- The record registered for a named route (lines 256-261). -/
def routeNamedRecord (n : RouterNode H V) (m : RouteOptionsM H V) : NamedUrl :=
  ⟨routeUri n m, routeMergedPatterns n m⟩

/-- The entry pushed onto `this.routes` (lines 277-281). -/
def routeEntryOf (cfg : RouterConfig H V) (n : RouterNode H V) (m : RouteOptionsM H V)
    (a : H) : RouteEntry H :=
  ⟨m.method, laravelToExpress (routeUri n m) (routeMergedPatterns n m),
   routeStack cfg n m a⟩

/-- `Router.route(options, action)` (source lines 221-284). -/
def routeStep (cfg : RouterConfig H V) (n : RouterNode H V) (sys : Sys H)
    (arg : StrOrRouteOpts H V) (a : H) : RouterNode H V × Sys H :=
  let m := mergedRouteOpts (normalizeRouteArg arg)
  let entry := routeEntryOf cfg n m a
  let sys1 :=
    if m.name ≠ "" then
      { sys with named := objInsert sys.named (routeFinalName n m) (routeNamedRecord n m) }
    else sys
  let sys2 :=
    if cfg.eager then
      { sys1 with hostCalls := sys1.hostCalls ++ [.verb m.method entry.path entry.handlers] }
    else sys1
  (.mk n.uris n.middlewares n.names (routeNodePatterns n m) n.metas
    (if cfg.eager then false else n.lazyRoute) (n.routes ++ [entry]) n.routeGroups,
   sys2)

/-- The entry pushed onto `this.routes` by `serve` (lines 369-373). -/
def serveEntryOf (n : RouterNode H V) (uri : String) (mw : H) : RouteEntry H :=
  ⟨"get", laravelToExpress (pathJoin (n.uris ++ [uri])) (objMergeAll n.patterns),
   n.middlewares ++ [mw]⟩

/-- `Router.serve(uri, staticMiddleware)` (source lines 350-376). In the
eager branch, source line 361 executes `this.lazyRoute = true` — even
though the comment above it, identical to `route()`'s, says routing is
applied immediately (and `route()` sets the flag to `false` there). The
model reproduces the line as written. -/
def serveStep (cfg : RouterConfig H V) (n : RouterNode H V) (sys : Sys H)
    (uri : String) (mw : H) : RouterNode H V × Sys H :=
  let entry := serveEntryOf n uri mw
  let sys1 :=
    if cfg.eager then
      { sys with hostCalls := sys.hostCalls ++ [.use entry.path entry.handlers] }
    else sys
  (.mk n.uris n.middlewares n.names n.patterns n.metas
    (if cfg.eager then true else n.lazyRoute) (n.routes ++ [entry]) n.routeGroups,
   sys1)

/-- The `map` callback accumulation of `group()` (source lines 305-317):
each accumulated uri (the parent's plus the new prefix) is re-compiled; its
formatted uri replaces it, and any formatted patterns are spread into the
running `parsedPatterns` object. -/
def groupScanStep (acc : List String × List (String × String)) (u : String) :
    List String × List (String × String) :=
  (acc.1 ++ [(formatUriAndPatterns u).uri],
   match (formatUriAndPatterns u).patterns with
   | some fp => objMerge acc.2 fp
   | none => acc.2)

def groupScan (uris : List String) : List String × List (String × String) :=
  uris.foldl groupScanStep ([], [])

/-- `Router.group` up to the closure call (source lines 292-332): returns
the updated parent (its own `patterns` extended when the scan found any
parsed patterns, lines 319-321) and the freshly initialized child router
(lines 300, 305, 323-326). The push of the child onto `routeGroups`
happens in `runScript` after the builder closure has run, which is
observationally equivalent to the source's push-by-reference before it. -/
def groupInit (cfg : RouterConfig H V) (n : RouterNode H V)
    (arg : StrOrGroupOpts H V) : RouterNode H V × RouterNode H V :=
  let g := mergedGroupOpts (normalizeGroupArg arg)
  let scan := groupScan (n.uris ++ [g.pfx])
  let parentPats := if scan.2.isEmpty then n.patterns else n.patterns ++ [scan.2]
  (.mk n.uris n.middlewares n.names parentPats n.metas n.lazyRoute n.routes n.routeGroups,
   .mk scan.1 (n.middlewares ++ g.middleware) (n.names ++ [g.nspace])
     (parentPats ++ [g.patterns]) (n.metas ++ [g.meta]) (!cfg.eager) [] [])

/-- A setup script: the sequence of routing calls made by application code,
with `group` carrying the body run by its builder closure. -/
inductive Script (H V : Type) where
  | nil : Script H V
  | route (arg : StrOrRouteOpts H V) (action : H) (rest : Script H V) : Script H V
  | serve (uri : String) (mw : H) (rest : Script H V) : Script H V
  | group (arg : StrOrGroupOpts H V) (body : Script H V) (rest : Script H V) : Script H V

/-- `this.routeGroups.push(router)` (source line 332). -/
def appendGroup (n child : RouterNode H V) : RouterNode H V :=
  .mk n.uris n.middlewares n.names n.patterns n.metas n.lazyRoute n.routes
    (n.routeGroups ++ [child])

/-- Run a setup script against a node, threading the shared state. -/
def runScript (cfg : RouterConfig H V) :
    RouterNode H V → Sys H → Script H V → RouterNode H V × Sys H
  | n, sys, .nil => (n, sys)
  | n, sys, .route arg a rest =>
    runScript cfg (routeStep cfg n sys arg a).1 (routeStep cfg n sys arg a).2 rest
  | n, sys, .serve u mw rest =>
    runScript cfg (serveStep cfg n sys u mw).1 (serveStep cfg n sys u mw).2 rest
  | n, sys, .group arg body rest =>
    runScript cfg
      (appendGroup (groupInit cfg n arg).1
        (runScript cfg (groupInit cfg n arg).2 sys body).1)
      (runScript cfg (groupInit cfg n arg).2 sys body).2 rest

/-- `Router.apply(routingFn)` (source lines 407-418), with the sequence of
`routingFn` invocations collected as a list (apply performs no mutation):
nothing if `lazyRoute` is false, else this node's `routes` in order followed
by each child in `routeGroups` order, recursively. Fuel-indexed; any fuel
exceeding the tree depth is enough. -/
def applyCallsF : Nat → RouterNode H V → List (RouteEntry H)
  | 0, _ => []
  | f + 1, n =>
    if n.lazyRoute then n.routes ++ (n.routeGroups.map (applyCallsF f)).flatten
    else []

/-- The order the spec prescribes for `apply` in lazy mode (spec section
4.3): once per RouteEntry owned by a node, in registration order, then
depth-first into child nodes in creation order — with no mode guard. Used
as the specification side of claim C4. -/
def applySpecOrderF : Nat → RouterNode H V → List (RouteEntry H)
  | 0, _ => []
  | f + 1, n => n.routes ++ (n.routeGroups.map (applySpecOrderF f)).flatten

/-- `lazyRoute` holds on every node of the tree, which has depth below the
fuel. -/
def goodF : Nat → RouterNode H V → Bool
  | 0, _ => false
  | f + 1, n => n.lazyRoute && n.routeGroups.all (goodF f)

/-- Total number of route entries in the tree (up to the fuel depth). -/
def totalRoutesF : Nat → RouterNode H V → Nat
  | 0, _ => 0
  | f + 1, n => n.routes.length + (n.routeGroups.map (totalRoutesF f)).sum

/-- Group-nesting depth of a script. -/
def scriptDepth : Script H V → Nat
  | .nil => 0
  | .route _ _ rest => scriptDepth rest
  | .serve _ _ rest => scriptDepth rest
  | .group _ body rest => max (scriptDepth body + 1) (scriptDepth rest)

/-- Number of `route`/`serve` registrations in a script. -/
def routeCount : Script H V → Nat
  | .nil => 0
  | .route _ _ rest => 1 + routeCount rest
  | .serve _ _ rest => 1 + routeCount rest
  | .group _ body rest => routeCount body + routeCount rest

end RouterModel

/-! ## The named-route URL builder -/

/-- The error message of source line 389 (including its double space). -/
def urlNotFoundMsg (name : String) : String :=
  "No URL found for  \"" ++ name ++ "\""

/-- Elide the path separator adjoining an elided optional parameter. -/
def dropTrailingSlash (out : List Char) : List Char :=
  if out.getLast? = some '/' then out.dropLast else out

def uriSubstF : Nat → List (String × String) → List Char → List Char → List String →
    Except String (List Char × List String)
  | 0, _, cs, out, used => .ok (out ++ cs, used)
  | _ + 1, _, [], out, used => .ok (out, used)
  | f + 1, params, c :: cs, out, used =>
    if c = '{' || c = ':' then
      if (cs.takeWhile isWordChar).isEmpty then uriSubstF f params cs (out ++ [c]) used
      else
        match
          (if c = '{' then
            match cs.dropWhile isWordChar with
            | '?' :: '}' :: r2 => some (true, r2)
            | '}' :: r2 => some (false, r2)
            | _ => none
          else
            match cs.dropWhile isWordChar with
            | '?' :: r2 => some (true, r2)
            | r2 => some (false, r2)) with
        | none => uriSubstF f params cs (out ++ [c]) used
        | some (opt, r2) =>
          match lookupObj params (String.mk (cs.takeWhile isWordChar)) with
          | some val =>
            uriSubstF f params r2 (out ++ val.data)
              (used ++ [String.mk (cs.takeWhile isWordChar)])
          | none =>
            if opt then uriSubstF f params r2 (dropTrailingSlash out) used
            else .error ("Missing required parameter \"" ++
              String.mk (cs.takeWhile isWordChar) ++ "\"")
    else c :: [] |> fun pc => uriSubstF f params cs (out ++ pc) used

/-- Leftover params serialized as a query string. -/
def queryString (leftover : List (String × String)) : String :=
  match leftover with
  | [] => ""
  | _ => "?" ++ String.intercalate "&" (leftover.map (fun kv => kv.1 ++ "=" ++ kv.2))

/-- Modelled from the spec: `lib/uri-with-params.js` is required by
`create-router.js` but is not under `src/`. Spec section 4.4: walk the
stored normalized template substituting each placeholder with the value from
`params` (a required placeholder missing from `params` fails synchronously
naming the parameter; a missing optional placeholder is elided together with
its adjoining path separator); parameters not consumed by a placeholder are
serialized as a query string appended to the result. Constraint validation
(ConstraintViolation) is not modelled — no claim exercises it. -/
def uriWithParams (uri : String) (params : List (String × String))
    (_patterns : List (String × String)) (_options : List (String × String)) :
    Except String String :=
  match uriSubstF (uri.length + 1) params uri.data [] [] with
  | .error e => .error e
  | .ok r =>
    .ok (String.mk r.1 ++ queryString (params.filter (fun kv => !(r.2.contains kv.1))))

/-- `Router.url(name, params, options)` (source lines 385-395): look the
name up in the shared `namedUrls` store, throw the not-found error when
absent, else delegate to `uriWithParams`. The lookup reads only the shared
store — no node data is involved, and nothing is written. -/
def urlCall {H : Type} (sys : Sys H) (name : String)
    (params : List (String × String)) (options : List (String × String)) :
    Except String String :=
  match lookupObj sys.named name with
  | none => .error (urlNotFoundMsg name)
  | some r => uriWithParams r.uri params r.patterns options

/-! ## The verb-dispatch proxy -/

/-- Every property name `in` a proxied Router instance: the prototype's
methods, the instance fields set by the constructor, and the members
inherited from `Object.prototype`. -/
def routerMembers : List String :=
  ["constructor", "route", "group", "serve", "url", "apply",
   "app", "uris", "middlewares", "names", "patterns", "metas",
   "lazyRoute", "routes", "routeGroups",
   "hasOwnProperty", "isPrototypeOf", "propertyIsEnumerable",
   "toLocaleString", "toString", "valueOf", "__proto__"]

/-- The body of the dynamic verb handler built by the proxy (source lines
43-50): normalize a bare-string `options` into `{uri: options}`, set
`options.method` to the accessed property name, call `route`. -/
def verbHandler {H V : Type} (cfg : RouterConfig H V) (v : String)
    (opts : StrOrRouteOpts H V) (a : H) (n : RouterNode H V) (sys : Sys H) :
    RouterNode H V × Sys H :=
  routeStep cfg n sys (.obj { normalizeRouteArg opts with method := some v }) a

/-- The `proxy.get` trap (source lines 36-55): a property already present on
the Router resolves to that member (`none` here — no verb handler); any
other property name yields the dynamic verb handler. -/
def proxyGet {H V : Type} (cfg : RouterConfig H V) (v : String) :
    Option (StrOrRouteOpts H V → H → RouterNode H V → Sys H → RouterNode H V × Sys H) :=
  if v ∈ routerMembers then none else some (verbHandler cfg v)

/-! ## Lookup lemmas for the JavaScript object model -/

theorem lookupObj_objInsert_self {α : Type} (m : List (String × α)) (k : String) (v : α) :
    lookupObj (objInsert m k v) k = some v := by
  induction m with
  | nil => simp [objInsert, lookupObj]
  | cons a rest ih =>
    obtain ⟨k1, v1⟩ := a
    unfold objInsert
    by_cases h : k1 = k
    · rw [if_pos h]
      simp [lookupObj]
    · rw [if_neg h]
      unfold lookupObj
      rw [if_neg h]
      exact ih

theorem lookupObj_objInsert_ne {α : Type} (m : List (String × α)) (k : String) (v : α)
    (k2 : String) (h : k2 ≠ k) :
    lookupObj (objInsert m k v) k2 = lookupObj m k2 := by
  have h2 : ¬k = k2 := fun hh => h hh.symm
  induction m with
  | nil =>
    show lookupObj [(k, v)] k2 = lookupObj [] k2
    unfold lookupObj
    rw [if_neg h2]
    rfl
  | cons a rest ih =>
    obtain ⟨k1, v1⟩ := a
    unfold objInsert
    by_cases h1 : k1 = k
    · rw [if_pos h1]
      show lookupObj ((k, v) :: rest) k2 = lookupObj ((k1, v1) :: rest) k2
      unfold lookupObj
      rw [if_neg h2, if_neg (fun hh => h2 (h1 ▸ hh))]
    · rw [if_neg h1]
      show lookupObj ((k1, v1) :: objInsert rest k v) k2 = lookupObj ((k1, v1) :: rest) k2
      unfold lookupObj
      by_cases hk12 : k1 = k2
      · rw [if_pos hk12, if_pos hk12]
      · rw [if_neg hk12, if_neg hk12]
        exact ih

theorem lookupObj_none_keys {α : Type} {l : List (String × α)} {k : String} :
    lookupObj l k = none ↔ ∀ p ∈ l, p.1 ≠ k := by
  induction l with
  | nil => simp [lookupObj]
  | cons a rest ih =>
    obtain ⟨k1, v1⟩ := a
    unfold lookupObj
    by_cases h : k1 = k
    · simp [h]
    · simp only [if_neg h, ih]
      constructor
      · intro h2 p hp
        rcases List.mem_cons.mp hp with hh | hh
        · subst hh; exact h
        · exact h2 p hh
      · intro h2 p hp
        exact h2 p (List.mem_cons_of_mem _ hp)

theorem objMerge_lookup_none {α : Type} {b : List (String × α)} {k : String}
    (h : ∀ p ∈ b, p.1 ≠ k) (a : List (String × α)) :
    lookupObj (objMerge a b) k = lookupObj a k := by
  induction b generalizing a with
  | nil => rfl
  | cons p t ih =>
    obtain ⟨k1, v1⟩ := p
    show lookupObj (objMerge (objInsert a k1 v1) t) k = _
    rw [ih (fun q hq => h q (List.mem_cons_of_mem _ hq)) (objInsert a k1 v1)]
    exact lookupObj_objInsert_ne a k1 v1 k
      (fun hh => h (k1, v1) (List.mem_cons_self _ _) hh.symm)

/-- The keys of an association object are pairwise distinct. -/
def keysNodup {α : Type} (l : List (String × α)) : Prop :=
  (l.map Prod.fst).Nodup

theorem mem_keys_objInsert {α : Type} {m : List (String × α)} {k k2 : String} {v : α}
    (h : k2 ∈ (objInsert m k v).map Prod.fst) :
    k2 ∈ m.map Prod.fst ∨ k2 = k := by
  rcases List.mem_map.mp h with ⟨p, hp, hpk⟩
  rcases mem_objInsert hp with h2 | h2
  · exact Or.inl (List.mem_map.mpr ⟨p, h2, hpk⟩)
  · subst h2; exact Or.inr hpk.symm

theorem objInsert_keys_nodup {α : Type} {m : List (String × α)} (k : String) (v : α)
    (h : keysNodup m) : keysNodup (objInsert m k v) := by
  induction m with
  | nil => simp [objInsert, keysNodup]
  | cons a rest ih =>
    obtain ⟨k1, v1⟩ := a
    unfold keysNodup at h
    rw [List.map_cons, List.nodup_cons] at h
    unfold objInsert
    by_cases h1 : k1 = k
    · rw [if_pos h1]
      unfold keysNodup
      rw [List.map_cons, List.nodup_cons]
      exact ⟨h1 ▸ h.1, h.2⟩
    · rw [if_neg h1]
      unfold keysNodup
      rw [List.map_cons, List.nodup_cons]
      refine ⟨?_, ih h.2⟩
      intro hmem
      rcases mem_keys_objInsert hmem with h2 | h2
      · exact h.1 h2
      · exact h1 h2

theorem objMerge_keys_nodup {α : Type} {a b : List (String × α)}
    (h : keysNodup a) : keysNodup (objMerge a b) := by
  induction b generalizing a with
  | nil => exact h
  | cons p t ih =>
    obtain ⟨k1, v1⟩ := p
    exact ih (objInsert_keys_nodup k1 v1 h)

theorem objMerge_lookup_some {α : Type} {b : List (String × α)} {k : String} {v : α}
    (hnd : keysNodup b) (h : lookupObj b k = some v) (a : List (String × α)) :
    lookupObj (objMerge a b) k = some v := by
  induction b generalizing a with
  | nil => cases h
  | cons p t ih =>
    obtain ⟨k1, v1⟩ := p
    unfold keysNodup at hnd
    rw [List.map_cons, List.nodup_cons] at hnd
    unfold lookupObj at h
    show lookupObj (objMerge (objInsert a k1 v1) t) k = some v
    by_cases h1 : k1 = k
    · rw [if_pos h1] at h
      injection h with h
      subst h
      subst h1
      rw [objMerge_lookup_none ?_ (objInsert a k1 v1)]
      · exact lookupObj_objInsert_self a k1 v1
      · intro p hp hpk
        exact hnd.1 (List.mem_map.mpr ⟨p, hp, hpk⟩)
    · rw [if_neg h1] at h
      exact ih hnd.2 h (objInsert a k1 v1)

theorem objMergeAll_append_one {α : Type} (xs : List (List (String × α)))
    (p : List (String × α)) :
    objMergeAll (xs ++ [p]) = objMerge (objMergeAll xs) p := by
  unfold objMergeAll
  rw [List.foldl_append]
  rfl

theorem groupScan_keys_nodup_aux :
    ∀ (uris : List String) (acc : List String × List (String × String)),
      keysNodup acc.2 → keysNodup (uris.foldl groupScanStep acc).2 := by
  intro uris
  induction uris with
  | nil => intro acc h; exact h
  | cons u t ih =>
    intro acc h
    rw [List.foldl_cons]
    refine ih _ ?_
    show keysNodup (groupScanStep acc u).2
    unfold groupScanStep
    split
    · exact objMerge_keys_nodup h
    · exact h

theorem groupScan_keys_nodup (uris : List String) : keysNodup (groupScan uris).2 :=
  groupScan_keys_nodup_aux uris ([], []) (by simp [keysNodup])

/-! ## C2: apply after eager route()/serve() -/

/-- Default identity action mapper (`mapActionToHandler = (action) => action`,
source line 143) in lazy mode. -/
def idCfg : RouterConfig String String := ⟨false, fun a _ _ => a⟩

/-- Default identity action mapper with an Express-type app (eager mode). -/
def eagerIdCfg : RouterConfig String String := ⟨true, fun a _ _ => a⟩

/-- The failing input for C2: an eager router on which `route()` then
`serve()` are called. -/
def c2script : Script String String :=
  .route (.str "/a") "h" (.serve "/files" "st" .nil)

/-- C2 [code_bug]: evaluating the code at the failing input. On an eager
router, after `route("/a")` and `serve("/files")`, `serve` has set
`lazyRoute` back to true (source line 361, contradicting its own comment,
which — like `route()`'s — says eager registration happened and lazy mode is
off), so a subsequent `apply(fn)` invokes `fn` once per accumulated entry —
2 times here, not 0 times as the claim states. Both entries were moreover
already registered with the host at definition time, so they are applied a
second time. -/
theorem c2_eager_apply_eval :
    (runScript eagerIdCfg (mkRouter eagerIdCfg) sysInit c2script).1.lazyRoute = true ∧
    (applyCallsF 2 (runScript eagerIdCfg (mkRouter eagerIdCfg) sysInit c2script).1).length
      = 2 ∧
    (2 : Nat) ≠ 0 ∧
    (runScript eagerIdCfg (mkRouter eagerIdCfg) sysInit c2script).2.hostCalls.length = 2 := by
  refine ⟨by decide, by decide, by decide, by decide⟩

/-! ## C5: group/route composition -/

/-- The example of C5: a group with prefix `/admin` and middleware `[A]`
containing a route `/users` with middleware `[B]` and name `list`. -/
def c5script : Script String String :=
  .group (.obj { pfx := some "/admin", middleware := some ["A"] })
    (.route (.obj { uri := some "/users", middleware := some ["B"], name := some "list" })
      "act" .nil)
    .nil

/-- C5 [confirmed]: composition of group and route. In general the handler
stack appended by `route()` is the node's accumulated (ancestors')
middleware, then the route's own middleware, then the resolved action
handler, and a child created by `group()` accumulates the parent's
middleware before the group's own. On the concrete example, the group
`/admin` + `[A]` containing route `/users` + `[B]` named `list` yields the
single entry with compiled path `/admin/users` (no duplicate separator),
handler stack `[A, B, act]`, and the name `list` registered for
`/admin/users`. -/
theorem c5_group_route_composition :
    (∀ (H V : Type) (cfg : RouterConfig H V) (n : RouterNode H V) (sys : Sys H)
        (o : RouteOptions H V) (a : H),
      (routeStep cfg n sys (.obj o) a).1.routes = n.routes ++
        [⟨(mergedRouteOpts o).method,
          laravelToExpress (routeUri n (mergedRouteOpts o))
            (routeMergedPatterns n (mergedRouteOpts o)),
          (n.middlewares ++ (mergedRouteOpts o).middleware) ++
            [cfg.mapActionToHandler a (routeDescOf n (mergedRouteOpts o))
              (mergedRouteOpts o)]⟩]) ∧
    (∀ (H V : Type) (cfg : RouterConfig H V) (n : RouterNode H V)
        (o : GroupOptions H V),
      (groupInit cfg n (.obj o)).2.middlewares =
        n.middlewares ++ (mergedGroupOpts o).middleware) ∧
    applyCallsF 2 (runScript idCfg (mkRouter idCfg) sysInit c5script).1 =
      [⟨"get", "/admin/users", ["A", "B", "act"]⟩] ∧
    lookupObj (runScript idCfg (mkRouter idCfg) sysInit c5script).2.named "list" =
      some ⟨"/admin/users", []⟩ := by
  refine ⟨?_, ?_, by decide, by decide⟩
  · intro H V cfg n sys o a
    rfl
  · intro H V cfg n o
    rfl

/-! ## C6: the named-route registry -/

/-- C6 [confirmed]: a NamedRouteRecord is written by `route()` exactly when
the registration's own (merged) name is non-empty; the key is the joined
final name and the write is an in-place overwrite of the single shared
store (so the latest registration for a name wins and every other key is
untouched). `urlCall` reads only this shared store — it takes no node — so
a name registered through any node is visible to `url()` everywhere. -/
theorem c6_named_registry {H V : Type} (cfg : RouterConfig H V) (n : RouterNode H V)
    (sys : Sys H) (o : RouteOptions H V) (a : H) :
    ((mergedRouteOpts o).name = "" →
      (routeStep cfg n sys (.obj o) a).2.named = sys.named) ∧
    ((mergedRouteOpts o).name ≠ "" →
      (routeStep cfg n sys (.obj o) a).2.named =
        objInsert sys.named (routeFinalName n (mergedRouteOpts o))
          (routeNamedRecord n (mergedRouteOpts o)) ∧
      lookupObj (routeStep cfg n sys (.obj o) a).2.named
          (routeFinalName n (mergedRouteOpts o)) =
        some (routeNamedRecord n (mergedRouteOpts o)) ∧
      (∀ k, k ≠ routeFinalName n (mergedRouteOpts o) →
        lookupObj (routeStep cfg n sys (.obj o) a).2.named k =
          lookupObj sys.named k)) := by
  constructor
  · intro h
    by_cases he : cfg.eager <;>
      simp [routeStep, normalizeRouteArg, h, he]
  · intro h
    have hnamed : (routeStep cfg n sys (.obj o) a).2.named =
        objInsert sys.named (routeFinalName n (mergedRouteOpts o))
          (routeNamedRecord n (mergedRouteOpts o)) := by
      by_cases he : cfg.eager <;>
        simp [routeStep, normalizeRouteArg, h, he]
    refine ⟨hnamed, ?_, ?_⟩
    · rw [hnamed]
      exact lookupObj_objInsert_self _ _ _
    · intro k hk
      rw [hnamed]
      exact lookupObj_objInsert_ne _ _ _ _ hk

/-- Witness for C6: applied on a store that already holds a record for
`"list"`; the new registration of the same final name silently overwrites
it, and an unrelated name is untouched. -/
theorem c6_witness :
    ((mergedRouteOpts { name := some "list", uri := some "/x" } :
        RouteOptionsM String String).name ≠ "") ∧
    lookupObj (routeStep idCfg (mkRouter idCfg)
        ⟨[("list", ⟨"/old", []⟩), ("other", ⟨"/o", []⟩)], []⟩
        (.obj { name := some "list", uri := some "/x" }) "act").2.named "list" =
      some ⟨"/x", []⟩ ∧
    lookupObj (routeStep idCfg (mkRouter idCfg)
        ⟨[("list", ⟨"/old", []⟩), ("other", ⟨"/o", []⟩)], []⟩
        (.obj { name := some "list", uri := some "/x" }) "act").2.named "other" =
      some ⟨"/o", []⟩ := by
  refine ⟨by decide, ?_, ?_⟩
  · have h := (c6_named_registry idCfg (mkRouter idCfg)
      ⟨[("list", ⟨"/old", []⟩), ("other", ⟨"/o", []⟩)], []⟩
      { name := some "list", uri := some "/x" } "act").2 (by decide)
    refine h.2.1.trans ?_
    decide
  · have h := (c6_named_registry idCfg (mkRouter idCfg)
      ⟨[("list", ⟨"/old", []⟩), ("other", ⟨"/o", []⟩)], []⟩
      { name := some "list", uri := some "/x" } "act").2 (by decide)
    refine (h.2.2 "other" (by decide)).trans ?_
    decide

/-! ## C8: url() on an unregistered name -/

/-- C8 [confirmed]: `url(name, ...)` on a name absent from the shared
named-route store fails synchronously with the not-found error naming the
missing name (source lines 388-390); `urlCall` is a pure read — no state is
modified. -/
theorem c8_url_not_found {H : Type} (sys : Sys H) (name : String)
    (params options : List (String × String))
    (h : lookupObj sys.named name = none) :
    urlCall sys name params options = .error (urlNotFoundMsg name) := by
  unfold urlCall
  rw [h]

/-- Witness for C8: `url("missing-name", {})` on an empty registry. -/
theorem c8_witness :
    lookupObj (sysInit : Sys String).named "missing-name" = none ∧
    urlCall (sysInit : Sys String) "missing-name" [] [] =
      .error "No URL found for  \"missing-name\"" := by
  refine ⟨by decide, ?_⟩
  exact (c8_url_not_found (sysInit : Sys String) "missing-name" [] [] (by decide)).trans rfl

/-! ## C9: the verb-dispatch surface -/

/-- C9 [confirmed]: for every property name `v` that is not an existing
Router member, the proxy yields a handler, and that handler behaves exactly
as `route({...options, method: v}, action)` with a bare-string `options`
normalized to `{uri: options}` — any verb string is accepted, with no fixed
verb set. -/
theorem c9_verb_dispatch {H V : Type} (cfg : RouterConfig H V) (v : String)
    (hv : v ∉ routerMembers) (opts : StrOrRouteOpts H V) (a : H)
    (n : RouterNode H V) (sys : Sys H) :
    ∃ f, proxyGet cfg v = some f ∧
      f opts a n sys =
        routeStep cfg n sys (.obj { normalizeRouteArg opts with method := some v }) a := by
  refine ⟨verbHandler cfg v, ?_, rfl⟩
  unfold proxyGet
  rw [if_neg hv]

/-- Witness for C9: `"purge"` names no Router member, so `router.purge(uri,
action)` routes with method `"purge"`. -/
theorem c9_witness :
    ("purge" ∉ routerMembers) ∧
    ∃ f, proxyGet idCfg "purge" = some f ∧
      f (.str "/cache") "h" (mkRouter idCfg) sysInit =
        routeStep idCfg (mkRouter idCfg) sysInit
          (.obj { normalizeRouteArg (.str "/cache") with method := some "purge" }) "h" :=
  ⟨by decide,
   c9_verb_dispatch idCfg "purge" (by decide) (.str "/cache") "h" (mkRouter idCfg) sysInit⟩

/-! ## C10: group() and the parent's own state -/

/-- C10 [confirmed]: `group()` never touches the parent's `uris`,
`middlewares`, `names` or `metas`; its `patterns` list is unchanged exactly
when the re-scan of the accumulated uris (parent's uris plus the new
prefix) parses no inline constraints, and otherwise the parsed constraint
object is appended to the PARENT's own patterns (source lines 319-321) — so
a route registered on the parent afterwards folds the group prefix's
constraints into its merged pattern map (provided neither the route's own
patterns nor its own uri constraints override the key). -/
theorem c10_group_mutates_parent {H V : Type} (cfg : RouterConfig H V)
    (n : RouterNode H V) (sys : Sys H) (o : GroupOptions H V) (body : Script H V) :
    ((runScript cfg n sys (.group (.obj o) body .nil)).1.uris = n.uris ∧
     (runScript cfg n sys (.group (.obj o) body .nil)).1.middlewares = n.middlewares ∧
     (runScript cfg n sys (.group (.obj o) body .nil)).1.names = n.names ∧
     (runScript cfg n sys (.group (.obj o) body .nil)).1.metas = n.metas) ∧
    ((groupScan (n.uris ++ [(mergedGroupOpts o).pfx])).2 = [] →
      (runScript cfg n sys (.group (.obj o) body .nil)).1.patterns = n.patterns) ∧
    ((groupScan (n.uris ++ [(mergedGroupOpts o).pfx])).2 ≠ [] →
      (runScript cfg n sys (.group (.obj o) body .nil)).1.patterns =
        n.patterns ++ [(groupScan (n.uris ++ [(mergedGroupOpts o).pfx])).2]) ∧
    (∀ (o2 : RouteOptions H V) (k v : String),
      lookupObj (groupScan (n.uris ++ [(mergedGroupOpts o).pfx])).2 k = some v →
      lookupObj (mergedRouteOpts o2).patterns k = none →
      (formatUriAndPatterns
        (routeRawUri (runScript cfg n sys (.group (.obj o) body .nil)).1
          (mergedRouteOpts o2))).patterns = none →
      lookupObj (routeMergedPatterns (runScript cfg n sys (.group (.obj o) body .nil)).1
        (mergedRouteOpts o2)) k = some v) := by
  have hpats : (runScript cfg n sys (.group (.obj o) body .nil)).1.patterns =
      (if (groupScan (n.uris ++ [(mergedGroupOpts o).pfx])).2.isEmpty then n.patterns
       else n.patterns ++ [(groupScan (n.uris ++ [(mergedGroupOpts o).pfx])).2]) := rfl
  refine ⟨⟨rfl, rfl, rfl, rfl⟩, ?_, ?_, ?_⟩
  · intro h
    rw [hpats, h]
    rfl
  · intro h
    rw [hpats, if_neg (fun hh => h (by simpa using hh))]
  · intro o2 k v hk ho2 hfmt
    have hne : (groupScan (n.uris ++ [(mergedGroupOpts o).pfx])).2 ≠ [] := by
      intro hh
      rw [hh] at hk
      cases hk
    have h3 : (runScript cfg n sys (.group (.obj o) body .nil)).1.patterns =
        n.patterns ++ [(groupScan (n.uris ++ [(mergedGroupOpts o).pfx])).2] := by
      rw [hpats, if_neg (fun hh => hne (by simpa using hh))]
    have hnp : routeNodePatterns (runScript cfg n sys (.group (.obj o) body .nil)).1
        (mergedRouteOpts o2) =
        (runScript cfg n sys (.group (.obj o) body .nil)).1.patterns := by
      unfold routeNodePatterns
      rw [hfmt]
    unfold routeMergedPatterns
    rw [hnp, h3, objMergeAll_append_one, objMergeAll_append_one,
      objMerge_lookup_none (lookupObj_none_keys.mp ho2)]
    exact objMerge_lookup_some (groupScan_keys_nodup _) hk _

/-- Witness for C10: a group prefix `/api/:v(\d+)` on a fresh router
appends `{v: ^\d+$}` to the parent's patterns, and a later route
`/list` registered on the parent receives the `v` constraint. -/
theorem c10_witness :
    (lookupObj (groupScan (((mkRouter idCfg : RouterNode String String)).uris ++
        [(mergedGroupOpts ({ pfx := some "/api/:v(\\d+)" } :
          GroupOptions String String)).pfx])).2 "v" =
      some "^\\d+$") ∧
    lookupObj (routeMergedPatterns
      (runScript idCfg (mkRouter idCfg) sysInit
        (.group (.obj ({ pfx := some "/api/:v(\\d+)" } : GroupOptions String String))
          .nil .nil)).1
      (mergedRouteOpts ({ uri := some "/list" } : RouteOptions String String)))
      "v" = some "^\\d+$" := by
  refine ⟨by decide, ?_⟩
  exact ((c10_group_mutates_parent idCfg (mkRouter idCfg) sysInit
    ({ pfx := some "/api/:v(\\d+)" } : GroupOptions String String) .nil).2.2.2
    ({ uri := some "/list" } : RouteOptions String String) "v" "^\\d+$"
    (by decide) (by decide) (by decide))

/-! ## C4: lazy-mode apply is a depth-first traversal -/

section ApplyLemmas

variable {H V : Type}

theorem length_flatten_sum {α : Type} :
    ∀ l : List (List α), l.flatten.length = (l.map List.length).sum := by
  intro l
  induction l with
  | nil => rfl
  | cons x t ih => simp [List.flatten_cons, List.length_append, ih]

/-- Two successive `apply(fn)` calls: the first traversal performs no
mutation (source lines 407-418 only read), so the second produces the same
invocations again. -/
def applyTwiceF (f : Nat) (n : RouterNode H V) : List (RouteEntry H) :=
  applyCallsF f n ++ applyCallsF f n

theorem applyCallsF_eq_spec :
    ∀ (f : Nat) (n : RouterNode H V), goodF f n = true →
      applyCallsF f n = applySpecOrderF f n := by
  intro f
  induction f with
  | zero => intro n h; cases h
  | succ f ih =>
    intro n h
    have h2 : n.lazyRoute = true ∧ n.routeGroups.all (goodF f) = true := by
      simpa [goodF, Bool.and_eq_true] using h
    show (if n.lazyRoute then n.routes ++ (n.routeGroups.map (applyCallsF f)).flatten
          else []) = n.routes ++ (n.routeGroups.map (applySpecOrderF f)).flatten
    rw [if_pos h2.1]
    congr 1
    congr 1
    exact List.map_congr_left
      (fun c hc => ih c (List.all_eq_true.mp h2.2 c hc))

theorem length_applySpecOrderF :
    ∀ (f : Nat) (n : RouterNode H V),
      (applySpecOrderF f n).length = totalRoutesF f n := by
  intro f
  induction f with
  | zero => intro n; rfl
  | succ f ih =>
    intro n
    show (n.routes ++ (n.routeGroups.map (applySpecOrderF f)).flatten).length =
      n.routes.length + (n.routeGroups.map (totalRoutesF f)).sum
    rw [List.length_append, length_flatten_sum, List.map_map]
    congr 1
    exact congrArg List.sum (List.map_congr_left (fun c _ => ih c))

/-- In lazy mode, running any setup script preserves tree-wide laziness
(below the fuel depth) and adds exactly one route entry per `route`/`serve`
call. -/
theorem runScript_good (cfg : RouterConfig H V) (he : cfg.eager = false) :
    ∀ (s : Script H V) (n : RouterNode H V) (sys : Sys H) (f : Nat),
      scriptDepth s + 2 ≤ f → goodF f n = true →
      goodF f (runScript cfg n sys s).1 = true ∧
      totalRoutesF f (runScript cfg n sys s).1 = totalRoutesF f n + routeCount s := by
  intro s
  induction s with
  | nil =>
    intro n sys f hf hgood
    exact ⟨hgood, by simp [runScript, routeCount]⟩
  | route arg a rest ih =>
    intro n sys f hf hgood
    obtain ⟨f2, rfl⟩ : ∃ f2, f = f2 + 1 := ⟨f - 1, by omega⟩
    have hsg : goodF (f2 + 1) (routeStep cfg n sys arg a).1 = true := by
      have hr : goodF (f2 + 1) (routeStep cfg n sys arg a).1 =
          ((if cfg.eager = true then false else n.lazyRoute) &&
            n.routeGroups.all (goodF f2)) := rfl
      rw [hr, he]
      simpa [goodF] using hgood
    have htot : totalRoutesF (f2 + 1) (routeStep cfg n sys arg a).1 =
        totalRoutesF (f2 + 1) n + 1 := by
      show (n.routes ++ [_]).length + (n.routeGroups.map (totalRoutesF f2)).sum =
        (n.routes.length + (n.routeGroups.map (totalRoutesF f2)).sum) + 1
      rw [List.length_append]
      simp
      omega
    obtain ⟨hg, ht⟩ := ih (routeStep cfg n sys arg a).1 (routeStep cfg n sys arg a).2
      (f2 + 1) (by simpa [scriptDepth] using hf) hsg
    refine ⟨hg, ?_⟩
    show totalRoutesF (f2 + 1) (runScript cfg (routeStep cfg n sys arg a).1
      (routeStep cfg n sys arg a).2 rest).1 = _
    rw [ht, htot]
    show _ = totalRoutesF (f2 + 1) n + (1 + routeCount rest)
    omega
  | serve u mw rest ih =>
    intro n sys f hf hgood
    obtain ⟨f2, rfl⟩ : ∃ f2, f = f2 + 1 := ⟨f - 1, by omega⟩
    have hsg : goodF (f2 + 1) (serveStep cfg n sys u mw).1 = true := by
      have hr : goodF (f2 + 1) (serveStep cfg n sys u mw).1 =
          ((if cfg.eager = true then true else n.lazyRoute) &&
            n.routeGroups.all (goodF f2)) := rfl
      rw [hr, he]
      simpa [goodF] using hgood
    have htot : totalRoutesF (f2 + 1) (serveStep cfg n sys u mw).1 =
        totalRoutesF (f2 + 1) n + 1 := by
      show (n.routes ++ [_]).length + (n.routeGroups.map (totalRoutesF f2)).sum =
        (n.routes.length + (n.routeGroups.map (totalRoutesF f2)).sum) + 1
      rw [List.length_append]
      simp
      omega
    obtain ⟨hg, ht⟩ := ih (serveStep cfg n sys u mw).1 (serveStep cfg n sys u mw).2
      (f2 + 1) (by simpa [scriptDepth] using hf) hsg
    refine ⟨hg, ?_⟩
    show totalRoutesF (f2 + 1) (runScript cfg (serveStep cfg n sys u mw).1
      (serveStep cfg n sys u mw).2 rest).1 = _
    rw [ht, htot]
    show _ = totalRoutesF (f2 + 1) n + (1 + routeCount rest)
    omega
  | group arg body rest ihb ihr =>
    intro n sys f hf hgood
    obtain ⟨f2, rfl⟩ : ∃ f2, f = f2 + 1 := ⟨f - 1, by omega⟩
    have hdepth : scriptDepth body + 2 ≤ f2 := by
      simp [scriptDepth] at hf
      omega
    have hrest : scriptDepth rest + 2 ≤ f2 + 1 := by
      simp [scriptDepth] at hf
      omega
    obtain ⟨f3, rfl⟩ : ∃ f3, f2 = f3 + 1 := ⟨f2 - 1, by omega⟩
    -- the freshly constructed child router is lazy with no children
    have hchild0 : goodF (f3 + 1) (groupInit cfg n arg).2 = true := by
      have hr : goodF (f3 + 1) (groupInit cfg n arg).2 =
          ((!cfg.eager) && List.all [] (goodF f3)) := rfl
      rw [hr, he]
      rfl
    obtain ⟨hgc1, htc1⟩ := ihb (groupInit cfg n arg).2 sys (f3 + 1) hdepth hchild0
    have htc0 : totalRoutesF (f3 + 1) (groupInit cfg n arg).2 = 0 := rfl
    rw [htc0] at htc1
    -- the parent with the finished child appended stays good
    have hgn : n.lazyRoute = true ∧ n.routeGroups.all (goodF (f3 + 1)) = true := by
      simpa [goodF, Bool.and_eq_true] using hgood
    have hpg : goodF (f3 + 1 + 1)
        (appendGroup (groupInit cfg n arg).1
          (runScript cfg (groupInit cfg n arg).2 sys body).1) = true := by
      have hr : goodF (f3 + 1 + 1)
          (appendGroup (groupInit cfg n arg).1
            (runScript cfg (groupInit cfg n arg).2 sys body).1) =
          (n.lazyRoute && (n.routeGroups ++
            [(runScript cfg (groupInit cfg n arg).2 sys body).1]).all
              (goodF (f3 + 1))) := rfl
      rw [hr, List.all_append]
      simp [hgn.1, hgn.2, hgc1]
    have htp : totalRoutesF (f3 + 1 + 1)
        (appendGroup (groupInit cfg n arg).1
          (runScript cfg (groupInit cfg n arg).2 sys body).1) =
        totalRoutesF (f3 + 1 + 1) n + routeCount body := by
      have hr : totalRoutesF (f3 + 1 + 1)
          (appendGroup (groupInit cfg n arg).1
            (runScript cfg (groupInit cfg n arg).2 sys body).1) =
          n.routes.length + ((n.routeGroups ++
            [(runScript cfg (groupInit cfg n arg).2 sys body).1]).map
              (totalRoutesF (f3 + 1))).sum := rfl
      rw [hr, List.map_append, List.sum_append]
      have hr2 : totalRoutesF (f3 + 1 + 1) n =
          n.routes.length + (n.routeGroups.map (totalRoutesF (f3 + 1))).sum := rfl
      rw [hr2]
      simp [htc1]
      omega
    obtain ⟨hgf, htf⟩ := ihr
      (appendGroup (groupInit cfg n arg).1
        (runScript cfg (groupInit cfg n arg).2 sys body).1)
      (runScript cfg (groupInit cfg n arg).2 sys body).2
      (f3 + 1 + 1) hrest hpg
    refine ⟨hgf, ?_⟩
    show totalRoutesF (f3 + 1 + 1) (runScript cfg
      (appendGroup (groupInit cfg n arg).1
        (runScript cfg (groupInit cfg n arg).2 sys body).1)
      (runScript cfg (groupInit cfg n arg).2 sys body).2 rest).1 = _
    rw [htf, htp]
    show _ = totalRoutesF (f3 + 1 + 1) n + (routeCount body + routeCount rest)
    omega

end ApplyLemmas

/-- C4 [confirmed]: in lazy mode, after any setup script, `apply(fn)`
invokes `fn` exactly once per registered RouteEntry across the whole tree —
its invocation sequence is precisely the depth-first flattening
(`applySpecOrderF`: each node's own entries in registration order, then its
child nodes in creation order), its length equals the number of
`route()`/`serve()` registrations performed, and a second `apply` call
(`applyTwiceF`; `apply` mutates nothing) repeats exactly the same sequence
— documented non-idempotence. -/
theorem c4_lazy_apply_dfs {H V : Type} (cfg : RouterConfig H V) (s : Script H V)
    (he : cfg.eager = false) :
    applyCallsF (scriptDepth s + 2) (runScript cfg (mkRouter cfg) sysInit s).1 =
      applySpecOrderF (scriptDepth s + 2) (runScript cfg (mkRouter cfg) sysInit s).1 ∧
    (applyCallsF (scriptDepth s + 2) (runScript cfg (mkRouter cfg) sysInit s).1).length =
      routeCount s ∧
    applyTwiceF (scriptDepth s + 2) (runScript cfg (mkRouter cfg) sysInit s).1 =
      applyCallsF (scriptDepth s + 2) (runScript cfg (mkRouter cfg) sysInit s).1 ++
        applyCallsF (scriptDepth s + 2) (runScript cfg (mkRouter cfg) sysInit s).1 := by
  have hroot : goodF (scriptDepth s + 2) (mkRouter cfg) = true := by
    have hr : goodF (scriptDepth s + 2) (mkRouter cfg) =
        ((!cfg.eager) && List.all [] (goodF (scriptDepth s + 1))) := rfl
    rw [hr, he]
    rfl
  obtain ⟨hg, ht⟩ := runScript_good cfg he s (mkRouter cfg) sysInit
    (scriptDepth s + 2) (Nat.le_refl _) hroot
  refine ⟨applyCallsF_eq_spec _ _ hg, ?_, rfl⟩
  rw [applyCallsF_eq_spec _ _ hg, length_applySpecOrderF, ht]
  have hr0 : totalRoutesF (scriptDepth s + 2) (mkRouter cfg) = 0 := rfl
  rw [hr0]
  omega

/-- The example script for the C4 witness: `route /a`, then a group `/g`
containing `route /b`, then `route /c` — depth-first apply order is
`a, c, b` (the parent's own entries first, then the subtree's). -/
def c4script : Script String String :=
  .route (.str "/a") "ha"
    (.group (.str "/g") (.route (.str "/b") "hb" .nil)
      (.route (.str "/c") "hc" .nil))

/-- Witness for C4: the theorem applied to the concrete lazy script; the
invocation sequence is `[/a, /c, /g/b]`, of length 3 = the number of
registrations, and doubled on a second apply. -/
theorem c4_witness :
    (idCfg.eager = false) ∧
    (applyCallsF (scriptDepth c4script + 2)
      (runScript idCfg (mkRouter idCfg) sysInit c4script).1).length = routeCount c4script ∧
    applyCallsF (scriptDepth c4script + 2)
        (runScript idCfg (mkRouter idCfg) sysInit c4script).1 =
      [⟨"get", "/a", ["ha"]⟩, ⟨"get", "/c", ["hc"]⟩, ⟨"get", "/g/b", ["hb"]⟩] := by
  refine ⟨rfl, (c4_lazy_apply_dfs idCfg c4script rfl).2.1, by decide⟩

end NLRouter
